import Mathlib

/-!
Verification development for the eppp network-synthesis core
(src/eppp/circuit.py and its collaborators).

The Python source is shallowly embedded: Python floats are modelled as
exact rationals, Python lists as Lean lists, the results dictionary as an
association list with dict semantics, and every operation that can raise a
Python exception returns in an Except monad.  Function and field names
follow the source where Lean allows it.
-/

namespace Eppp

attribute [local semireducible] Rat.add Rat.mul Rat.inv Rat.sub

/-- Python exceptions that the modelled code can raise, plus a fuel marker
used to model unbounded while loops (see get_avail_vals below). -/
inductive PyErr where
  | indexError
  | keyError
  | typeError
  | zeroDivisionError
  | nameError
  | infiniteResult
  | recursionError
  | fuelExhausted
  deriving DecidableEq, Repr

instance {ε α : Type} [DecidableEq ε] [DecidableEq α] : DecidableEq (Except ε α) :=
  fun a b =>
    match a, b with
    | .ok x, .ok y =>
      match decEq x y with
      | .isTrue h => .isTrue (by rw [h])
      | .isFalse h => .isFalse (fun hc => h (Except.ok.inj hc))
    | .error e₁, .error e₂ =>
      match decEq e₁ e₂ with
      | .isTrue h => .isTrue (by rw [h])
      | .isFalse h => .isFalse (fun hc => h (Except.error.inj hc))
    | .ok _, .error _ => .isFalse (fun hc => Except.noConfusion hc)
    | .error _, .ok _ => .isFalse (fun hc => Except.noConfusion hc)

/-- The two operator function objects stored in polish expressions:
_add and parallel_impedance (circuit.py lines 297-306). -/
inductive Oper where
  | add
  | par
  deriving DecidableEq, Repr

/-- An element of a polish expression list: a numeric value or one of the
two operator function objects. -/
inductive PElem where
  | val (q : ℚ)
  | op (o : Oper)
  deriving DecidableEq, Repr

/-- A polish expression: the flat list representation used by
make_resistance (operator first, operands after, e.g. [_add, val, expr]). -/
abbrev RPExpr := List PElem

/-- Number of numeric values (leaves) in a polish expression. -/
def nvals (e : RPExpr) : ℕ := e.countP (fun el => match el with | .val _ => true | .op _ => false)

/-- Python list indexing a[i]: negative indices wrap once from the end;
out-of-range raises IndexError. -/
def pyGet (a : List α) (i : ℤ) : Except PyErr α :=
  let j : ℤ := if i < 0 then i + a.length else i
  if 0 ≤ j then
    match a.get? j.toNat with
    | some x => .ok x
    | none => .error .indexError
  else .error .indexError

/-- Python list element assignment a[i] = x with the same index semantics. -/
def pySet (a : List α) (i : ℤ) (x : α) : Except PyErr (List α) :=
  let j : ℤ := if i < 0 then i + a.length else i
  if 0 ≤ j ∧ j.toNat < a.length then .ok (a.set j.toNat x) else .error .indexError

/-- The Python dict results, keyed by realized value. -/
abbrev PyDict := List (ℚ × RPExpr)

/-- Dictionary lookup: the binding for the key, if any (dicts built by
dictSet bind each key once). -/
def dictFind : PyDict → ℚ → Option RPExpr
  | [], _ => none
  | p :: d, k => if p.1 = k then some p.2 else dictFind d k

/-- Dictionary assignment d[k] = v: replaces the binding in place when the
key is present, appends it otherwise, exactly as a Python dict keeps
insertion order. -/
def dictSet : PyDict → ℚ → RPExpr → PyDict
  | [], k, v => [(k, v)]
  | p :: d, k, v => if p.1 = k then (k, v) :: d else p :: dictSet d k v

/-- The loop body of Python bisect.bisect_right (pure binary search on the
index range, faithful even for unsorted input).  The interval shrinks at
every step, so the structural fuel that bisect supplies never runs out. -/
def bisectLoop (a : List ℚ) (x : ℚ) : ℕ → ℕ → ℕ → ℕ
  | 0, lo, _ => lo
  | fuel + 1, lo, hi =>
    if lo < hi then
      let mid := (lo + hi) / 2
      if x < a.getD mid 0 then bisectLoop a x fuel lo mid
      else bisectLoop a x fuel (mid + 1) hi
    else lo

/-- Python bisect.bisect(keys, x), i.e. bisect_right. -/
def bisect (a : List ℚ) (x : ℚ) : ℕ := bisectLoop a x (a.length + 1) 0 a.length

/-- Python bisect.insort(a, x): insert x at the bisect_right position. -/
def insort (a : List ℚ) (x : ℚ) : List ℚ :=
  a.take (bisect a x) ++ x :: a.drop (bisect a x)

/-! ### Catalogue generator: get_avail_vals (circuit.py lines 351-459) -/

/-- The 24-entry base mantissa table (circuit.py avail_vals_dict at key E24). -/
def E24 : List ℚ :=
  [10, 11, 12, 13, 15, 16, 18, 20, 22, 24, 27, 30,
   33, 36, 39, 43, 47, 51, 56, 62, 68, 75, 82, 91]

/-- The 192-entry base mantissa table (circuit.py avail_vals_dict at key E192). -/
def E192 : List ℚ :=
  [100, 101, 102, 104, 105, 106, 107, 109, 110, 111, 113, 114,
   115, 117, 118, 120, 121, 123, 124, 126, 127, 129, 130, 132,
   133, 135, 137, 138, 140, 142, 143, 145, 147, 149, 150, 152,
   154, 156, 158, 160, 162, 164, 165, 167, 169, 172, 174, 176,
   178, 180, 182, 184, 187, 189, 191, 193, 196, 198, 200, 203,
   205, 208, 210, 213, 215, 218, 221, 223, 226, 229, 232, 234,
   237, 240, 243, 246, 249, 252, 255, 258, 261, 264, 267, 271,
   274, 277, 280, 284, 287, 291, 294, 297, 301, 305, 309, 312,
   316, 320, 324, 328, 332, 336, 340, 344, 348, 352, 357, 361,
   365, 370, 374, 379, 383, 388, 392, 397, 402, 407, 412, 417,
   422, 427, 432, 437, 442, 448, 453, 459, 464, 470, 475, 481,
   487, 493, 499, 505, 511, 517, 523, 530, 536, 542, 549, 556,
   562, 569, 576, 583, 590, 597, 604, 612, 619, 626, 634, 642,
   649, 657, 665, 673, 681, 690, 698, 706, 715, 723, 732, 741,
   750, 759, 768, 777, 787, 796, 806, 816, 825, 835, 845, 856,
   866, 876, 887, 898, 909, 920, 931, 942, 953, 965, 976, 988]

/-- Python float expression i % skip == 0 for a natural i and positive
rational skip (the skip values that occur, 24/k and 192/k, are exact). -/
def modSkipIsZero (i : ℕ) (skip : ℚ) : Bool :=
  decide ((i : ℚ) - skip * ⌊(i : ℚ) / skip⌋ = 0)

/-- Derives an E-series from a higher one: skip = len(orig)/series_num
(true division), keeping the entries whose index i has i % skip == 0. -/
def deriveSeries (series_num : ℕ) (orig : List ℚ) : List ℚ :=
  let skip : ℚ := (orig.length : ℚ) / (series_num : ℚ)
  (orig.enum.filter (fun p => modSkipIsZero p.1 skip)).map (fun p => p.2)

/-- Dictionary with common series (built at each get_avail_vals call). -/
def avail_vals_dict (s : String) : Option (List ℚ) :=
  if s = "E24" then some E24
  else if s = "E192" then some E192
  else if s = "E3" then some (deriveSeries 3 E24)
  else if s = "E6" then some (deriveSeries 6 E24)
  else if s = "E12" then some (deriveSeries 12 E24)
  else if s = "E48" then some (deriveSeries 48 E192)
  else if s = "E96" then some (deriveSeries 96 E192)
  else none

/-- The series argument: either a series-name string or an explicit
caller-owned mantissa list. -/
inductive SeriesArg where
  | name (s : String)
  | explicit (l : List ℚ)

/-- The basic mantissa list a series argument denotes. -/
def basicOf : SeriesArg → Option (List ℚ)
  | .name s => avail_vals_dict s
  | .explicit l => some l

/-- Fuel bound for the two unbounded while loops of get_avail_vals; 600
decades cover far more than any band that arises (IEEE doubles end at
about 1.8e308).  Exhausting it models non-termination of the Python loop,
which really happens e.g. for min_val less than or equal to 0. -/
def availFuel : ℕ := 600

/-- First while loop: while avail_vals[-1] <= max_val, append the basic
list scaled by the growing multiplier.  IndexError on an empty list
propagates (it is not caught in the source). -/
def upLoop (basic : List ℚ) (max_val : ℚ) : ℕ → List ℚ → ℚ → Except PyErr (List ℚ)
  | 0, _, _ => .error .fuelExhausted
  | fuel + 1, avail, multiplier => do
    let last ← pyGet avail (-1)
    if last ≤ max_val then
      upLoop basic max_val fuel (avail ++ basic.map (fun x => x * multiplier)) (multiplier * 10)
    else .ok avail

/-- Second while loop: while avail_vals[-1] >= min_val, append the
(reversed) basic list scaled down by the growing divider. -/
def downLoop (basic : List ℚ) (min_val : ℚ) : ℕ → List ℚ → ℚ → Except PyErr (List ℚ)
  | 0, _, _ => .error .fuelExhausted
  | fuel + 1, avail, divider => do
    let last ← pyGet avail (-1)
    if min_val ≤ last then
      downLoop basic min_val fuel (avail ++ basic.map (fun x => x / divider)) (divider * 10)
    else .ok avail

/-- get_avail_vals for comp_type resistor (the identity component
transform).  The second component of the result is the final state of the
caller-owned mantissa list when one was passed (it is aliased, not copied,
by the source and reversed in place half-way through), and none for a
series-name string. -/
def get_avail_vals (series : SeriesArg) (min_val max_val : ℚ) :
    Except PyErr (List ℚ × Option (List ℚ)) := do
  let basic_avail_vals ← match basicOf series with
    | some l => Except.ok l
    | none => Except.error PyErr.keyError
  let avail_vals := basic_avail_vals
  let avail_vals ← upLoop basic_avail_vals max_val availFuel avail_vals 10
  let avail_vals := avail_vals.reverse
  let basic_avail_vals := basic_avail_vals.reverse
  let avail_vals ← downLoop basic_avail_vals min_val availFuel avail_vals 10
  let avail_vals := avail_vals.reverse
  let avail_vals := (avail_vals.filter (fun x => x ≤ max_val)).filter (fun x => min_val ≤ x)
  .ok (avail_vals, match series with | .explicit _ => some basic_avail_vals | .name _ => none)

/-- Executable strict-ascent check (equivalent to Chain' (· < ·), see
ascChain_iff). -/
def ascChain : List ℚ → Bool
  | [] => true
  | [_] => true
  | a :: b :: rest => decide (a < b) && ascChain (b :: rest)

/-- Executable weak ascending chain: each entry at most the next one. -/
def leChain : List ℚ → Bool
  | [] => true
  | [_] => true
  | a :: b :: rest => decide (a ≤ b) && leChain (b :: rest)

/-- Validity of a base mantissa list: nonempty, strictly ascending,
positive, and spanning less than one decade (last < 10 * first).  Every
named series satisfies this; it is what an explicit caller list must
satisfy for the generator contract to hold. -/
def validBase (l : List ℚ) : Prop :=
  l ≠ [] ∧ ascChain l = true ∧ (∀ x ∈ l, 0 < x) ∧ l.getLastD 0 < 10 * l.headI

instance (l : List ℚ) : Decidable (validBase l) :=
  inferInstanceAs (Decidable (l ≠ [] ∧ ascChain l = true ∧ (∀ x ∈ l, 0 < x) ∧
    l.getLastD 0 < 10 * l.headI))

/-! ### Polish evaluators (circuit.py lines 461-529) -/

/-- parallel_impedance restricted to two arguments (circuit.py lines
269-295): reciprocals are summed, a zero impedance short-circuits the
result to 0.  A zero total admittance makes Python return float inf; that
value has no rational counterpart and is modelled as an error (it cannot
arise from nonzero inputs of equal sign). -/
def parallel_impedance (z1 z2 : ℚ) : Except PyErr ℚ :=
  if z1 = 0 ∨ z2 = 0 then .ok 0
  else if 1 / z1 + 1 / z2 = 0 then .error .infiniteResult
  else .ok (1 / (1 / z1 + 1 / z2))

/-- Application of one of the two operator function objects, as the strict
evaluator performs it on the top two stack entries. -/
def applyOper : Oper → ℚ → ℚ → Except PyErr ℚ
  | .add, a, b => .ok (a + b)
  | .par, a, b => parallel_impedance a b

/-- The while loop of _polish_eval.  The list argument is the Python expr
list reversed, so its head is the element the source pops from the end;
the stack keeps its top at the head (the reverse of the Python stack
list, which pushes at the end).  An operator pops two stack entries and
appends the combination back onto the expr list; popping an empty stack
raises IndexError.  Every iteration shrinks 2 * len(expr) + len(stack),
so the structural fuel _polish_eval supplies never runs out. -/
def polishLoop : ℕ → List PElem → List ℚ → Except PyErr (List ℚ)
  | 0, _, _ => .error .fuelExhausted
  | _ + 1, [], stack => .ok stack
  | fuel + 1, .val q :: rest, stack => polishLoop fuel rest (q :: stack)
  | fuel + 1, .op o :: rest, stack =>
    match stack with
    | a :: b :: stack₂ => do
      let r ← applyOper o a b
      polishLoop fuel (.val r :: rest) stack₂
    | _ => .error .indexError

/-- _polish_eval: evaluate the polish expression right to left and return
the final stack, reversed into top-first order (the source reverses the
Python list whose top is at the end). -/
def _polish_eval (expr : List PElem) : Except PyErr (List ℚ) :=
  polishLoop (2 * expr.length + 1) expr.reverse []

/-- Read a numeric element at a Python index; an operator function object
in an arithmetic position would raise TypeError. -/
def pyGetQ (a : List PElem) (i : ℤ) : Except PyErr ℚ := do
  match ← pyGet a i with
  | .val q => .ok q
  | .op _ => .error .typeError

/-- Write a numeric element at a Python index. -/
def pySetQ (a : List PElem) (i : ℤ) (q : ℚ) : Except PyErr (List PElem) :=
  pySet a i (.val q)

/-- The while loop of the fallback Python _polish_eval_non_strict
(circuit.py lines 499-528): an in-place stack machine over the expr list
itself.  The expression pointer i, a natural number here, counts the
remaining iterations of while i > 0 and doubles as the read index (the
source reads expr[i] right after decrementing i); the stack pointer j
stays an integer because it goes negative on Python lists of length
below 3. -/
def nsLoop : ℕ → List PElem → ℤ → Except PyErr ℚ
  | 0, expr, j => pyGetQ expr (j + 1)
  | i + 1, expr, j => do
    match ← pyGet expr (i : ℤ) with
    | .op .par => do
      let j₂ := j + 1
      let k := j₂ + 1
      let a ← pyGetQ expr k
      let b ← pyGetQ expr j₂
      if a + b = 0 then .error .zeroDivisionError
      else do
        let expr₂ ← pySetQ expr k ((a * b) / (a + b))
        nsLoop i expr₂ j₂
    | .op .add => do
      let j₂ := j + 1
      let a ← pyGetQ expr (j₂ + 1)
      let b ← pyGetQ expr j₂
      let expr₂ ← pySetQ expr (j₂ + 1) (a + b)
      nsLoop i expr₂ j₂
    | .val q => do
      let expr₂ ← pySetQ expr j q
      nsLoop i expr₂ (j - 1)

/-- _polish_eval_non_strict: i starts at len(expr) - 2 (the truncated
natural subtraction matches the skipped while loop for lengths below 3)
and j at len(expr) - 3; the final stack cell expr[j+1] is returned
without reversal. -/
def _polish_eval_non_strict (expr : List PElem) : Except PyErr ℚ :=
  nsLoop (expr.length - 2) expr ((expr.length : ℤ) - 3)

/-- Denotation of one operator application on operands with a nonzero
sum: series addition and the non-degenerate parallel formula ab/(a+b). -/
def opDenote : Oper → ℚ → ℚ → ℚ
  | .add, a, b => a + b
  | .par, a, b => a * b / (a + b)

/-- Specification-side stack machine: the reversed expression scanned
front to back with a value stack (top at the head); operators use the
non-degenerate denotation.  Both evaluators are proved against it. -/
def stackRun : List PElem → List ℚ → Option (List ℚ)
  | [], st => some st
  | .val q :: rest, st => stackRun rest (q :: st)
  | .op o :: rest, st =>
    match st with
    | a :: b :: st₂ => stackRun rest (opDenote o a b :: st₂)
    | _ => none

/-- Well-formedness scan of a polish expression, read right to left with a
running stack depth: a complete expression ends at depth exactly 1.  The
argument list is the reversed expression. -/
def scanOk : ℕ → List PElem → Bool
  | d, [] => d == 1
  | d, .val _ :: rest => scanOk (d + 1) rest
  | d, .op _ :: rest => if 2 ≤ d then scanOk (d - 1) rest else false

/-- A well-formed reverse-polish sequence: the right-to-left stack machine
run consumes it completely into a single value. -/
def wfRP (e : List PElem) : Prop := scanOk 0 e.reverse = true

instance (e : List PElem) : Decidable (wfRP e) :=
  inferInstanceAs (Decidable (scanOk 0 e.reverse = true))

/-- Strict positivity of one expression element (operators count as
positive vacuously). -/
def posElem : PElem → Bool
  | .val q => decide (0 < q)
  | .op _ => true

/-- All numeric elements of a polish expression are strictly positive. -/
def posRP (e : List PElem) : Prop := ∀ el ∈ e, posElem el = true

instance (e : List PElem) : Decidable (posRP e) :=
  inferInstanceAs (Decidable (∀ el ∈ e, posElem el = true))

/-! ### Expression tree (circuit.py class ExprTree, lines 48-146) -/

/-- Expression tree: a leaf holds the single numeric operand of a leaf
ExprTree object; an internal node holds the operator and the operand
subtrees. -/
inductive ETree where
  | leaf (v : ℚ)
  | node (o : Oper) (operands : List ETree)

mutual

/-- ExprTree._getSize: leaves count 1, nodes add up their operands. -/
def ETree.getSize : ETree → ℕ
  | .leaf _ => 1
  | .node _ cs => sizeList cs

/-- Sum of getSize over an operand list. -/
def sizeList : List ETree → ℕ
  | [] => 0
  | c :: cs => c.getSize + sizeList cs

end

/-- Insert a tree into a list that is ascending by getSize, before the
first entry of greater or equal size. -/
def sizeInsert (x : ETree) : List ETree → List ETree
  | [] => [x]
  | y :: ys => if x.getSize ≤ y.getSize then x :: y :: ys else y :: sizeInsert x ys

/-- Stable ascending insertion sort by getSize.  Python list.sort with a
key is stable, and any two stable ascending sorts by the same key agree,
so this computes exactly what new_operands.sort(key = ...) leaves. -/
def sizeSort : List ETree → List ETree
  | [] => []
  | x :: xs => sizeInsert x (sizeSort xs)

/-- One pass of the operand rebuild in ExprTree.simplify: a child node
carrying the parent operator donates its operands, anything else is kept. -/
def absorb (o : Oper) : List ETree → List ETree
  | [] => []
  | .node o₂ cs :: rest => if o₂ = o then cs ++ absorb o rest else .node o₂ cs :: absorb o rest
  | t :: rest => t :: absorb o rest

mutual

/-- ExprTree.simplify: simplify the operands, absorb same-operator
children, then sort the new operands by subtree size. -/
def ETree.simplify : ETree → ETree
  | .leaf v => .leaf v
  | .node o cs => .node o (sizeSort (absorb o (simplifyList cs)))

/-- simplify mapped over an operand list. -/
def simplifyList : List ETree → List ETree
  | [] => []
  | c :: cs => c.simplify :: simplifyList cs

end

/-- The tree does not carry the given operator at its own root. -/
def notSameOp (o : Oper) : ETree → Bool
  | .node o₂ _ => o₂ != o
  | .leaf _ => true

/-- The operand list is ascending by subtree size. -/
def sizeChain : List ETree → Bool
  | [] => true
  | [_] => true
  | a :: b :: rest => decide (a.getSize ≤ b.getSize) && sizeChain (b :: rest)

mutual

/-- Canonical form after simplify: at every node no operand repeats the
operator of its parent (the flattening invariant) and the operands are
ascending by subtree size. -/
def canon : ETree → Bool
  | .leaf _ => true
  | .node o cs => canonList cs && cs.all (notSameOp o) && sizeChain cs

/-- canon over an operand list. -/
def canonList : List ETree → Bool
  | [] => true
  | c :: cs => canon c && canonList cs

end

/-- The consuming parse in ExprTree.__init__, reading the polish list
front first (operator, then its two operand subexpressions); the fuel
argument bounds recursion depth by the list length, which suffices since
each step consumes one element.  Leftover elements are ignored, as in the
source. -/
def parseGo : ℕ → List PElem → Option (ETree × List PElem)
  | 0, _ => none
  | _ + 1, [] => none
  | _ + 1, .val v :: rest => some (.leaf v, rest)
  | fuel + 1, .op o :: rest => do
    let (t₁, r₁) ← parseGo fuel rest
    let (t₂, r₂) ← parseGo fuel r₁
    some (.node o [t₁, t₂], r₂)

/-- ExprTree(polish_expr) with the default do_simplify: parse, then
simplify once.  none models the IndexError a malformed expression raises. -/
def ExprTree (polish_expr : RPExpr) : Option ETree :=
  (parseGo polish_expr.length polish_expr).map (fun p => p.1.simplify)

/-! ### Synthesis engine: make_resistance (circuit.py lines 531-724) -/

/-- State threaded through the search: the results dictionary and the
per-level sorted key lists results_keyss.  The attempts field is a ghost
write-only trace that records, for every execution of a save-if-truly-new
block, the pair the block was asked to insert; it never influences the
computation and exists to let theorems speak about attempted insertions. -/
structure MRState where
  results : PyDict
  keyss : List (List ℚ)
  attempts : List (ℚ × RPExpr)
  deriving Repr, DecidableEq

/-- Best candidate so far: none models best_expr = best_val = None with
best_error = inf, otherwise the pair (best_expr, best_val); best_error is
always abs(target - best_val), so it needs no separate field. -/
abbrev Best := Option (RPExpr × ℚ)

/-- Update step shared by the probes and the extension loop: a strictly
smaller absolute error replaces the best candidate. -/
def bestUpdate (target : ℚ) (b : Best) (e : RPExpr) (v : ℚ) : Best :=
  match b with
  | none => some (e, v)
  | some (_, bv) => if |target - v| < |target - bv| then some (e, v) else b

/-- One guarded probe: read the key list at a Python index inside the
try block (IndexError is caught as pass), then look the key up in the
results dictionary (a missing key would be an uncaught KeyError) and
update the best candidate. -/
def probeTry (results : PyDict) (target : ℚ) (keys : List ℚ) (i : ℤ) (b : Best) :
    Except PyErr Best :=
  match pyGet keys i with
  | .error _ => .ok b
  | .ok v =>
    match dictFind results v with
    | none => .error .keyError
    | some e => .ok (bestUpdate target b e v)

/-- Probe of one level: the entry at the bisect index, then the one just
below it; when the bisect index is 0 the second probe reads Python index
-1, which wraps to the largest key of the level. -/
def probeLevel (results : PyDict) (target : ℚ) (b : Best) (keys : List ℚ) :
    Except PyErr Best := do
  let index := bisect keys target
  let b ← probeTry results target keys (index : ℤ) b
  probeTry results target keys ((index : ℤ) - 1) b

/-- Probe of a list of levels in order. -/
def probeAll (results : PyDict) (target : ℚ) (b : Best) (levels : List (List ℚ)) :
    Except PyErr Best :=
  levels.foldlM (probeLevel results target) b

/-- The save-if-truly-new block with the level index taken from the
expression length (new_num_comps = len(new_expr) // 2 + 1, helper lines
679-683 and 710-714): record the attempt in the ghost trace, and if the
value is not yet a key bind it and insort it into its level. -/
def saveNew (st : MRState) (new_val : ℚ) (new_expr : RPExpr) : Except PyErr MRState := do
  let stT := { st with attempts := st.attempts ++ [(new_val, new_expr)] }
  if (dictFind stT.results new_val).isSome then .ok stT
  else
    let new_num_comps := new_expr.length / 2 + 1
    match stT.keyss.get? (new_num_comps - 1) with
    | none => .error .indexError
    | some keys =>
      .ok { results := dictSet stT.results new_val new_expr,
            keyss := stT.keyss.set (new_num_comps - 1) (insort keys new_val),
            attempts := stT.attempts }

/-- The same block with a fixed level index, as the full-search block of
make_resistance uses it (lines 597-607). -/
def saveNewAt (st : MRState) (idx : ℕ) (new_val : ℚ) (new_expr : RPExpr) :
    Except PyErr MRState := do
  let stT := { st with attempts := st.attempts ++ [(new_val, new_expr)] }
  if (dictFind stT.results new_val).isSome then .ok stT
  else
    match stT.keyss.get? idx with
    | none => .error .indexError
    | some keys =>
      .ok { results := dictSet stT.results new_val new_expr,
            keyss := stT.keyss.set idx (insort keys new_val),
            attempts := stT.attempts }

/-- The extension loop of _make_resistance_helper over the available
values: series extension below the target, parallel extension at or above
it; a value equal to the target makes
needed = (val * target) / (val - target) raise ZeroDivisionError, and a
None best from the recursion makes the splice [op, val, *rec_expr] raise
TypeError.  The recursive helper call at the decremented budget is passed
in as the function argument recurse, which keeps the budget recursion of
mrHelper structural. -/
def mrExtGo (target : ℚ) (recurse : ℚ → MRState → Except PyErr (Best × MRState)) :
    List ℚ → Best → MRState → Except PyErr (Best × MRState)
  | [], b, st => .ok (b, st)
  | v :: rest, b, st =>
    if v < target then do
      let needed := target - v
      let (rb, st₁) ← recurse needed st
      match rb with
      | none => .error .typeError
      | some (re, rv) => do
        let new_expr : RPExpr := .op .add :: .val v :: re
        let new_val := rv + v
        let st₂ ← saveNew st₁ new_val new_expr
        mrExtGo target recurse rest (bestUpdate target b new_expr new_val) st₂
    else
      if v = target then .error .zeroDivisionError
      else do
        let needed := v * target / (v - target)
        let (rb, st₁) ← recurse needed st
        match rb with
        | none => .error .typeError
        | some (re, rv) => do
          let new_expr : RPExpr := .op .par :: .val v :: re
          if rv + v = 0 then .error .zeroDivisionError
          else do
            let new_val := rv * v / (rv + v)
            let st₂ ← saveNew st₁ new_val new_expr
            mrExtGo target recurse rest (bestUpdate target b new_expr new_val) st₂

/-- _make_resistance_helper (circuit.py lines 612-723), with the budget
first so that the recursion is structural (the source order is avail_vals,
target, num_comps, num_comps_fully_searched, tolerance).  The tolerance
parameter is carried but never used, exactly as in the source, whose
recursive calls pass it with a TODO remark.  The probe loop runs over
results_keyss[:num_comps]; the return inside it fires after the first
level whenever num_comps is 1 or at most num_comps_fully_searched.  A
budget of 0 is refused: make_resistance never produces one (the outer
loop starts at 1 and only the extension loop, which needs a budget of at
least 2 to run at all, decrements), and the source would slide into
slicing with negative num_comps there. -/
def mrHelper (avail : List ℚ) (tolerance : ℚ) :
    (num_comps : ℕ) → (target : ℚ) → (fully : ℕ) → MRState →
      Except PyErr (Best × MRState)
  | 0, _, _, _ => .error .recursionError
  | n + 1, target, fully, st =>
    if n = 0 ∨ n + 1 ≤ fully then
      match st.keyss.take (n + 1) with
      | [] =>
        mrExtGo target (fun t st₂ => mrHelper avail tolerance n t fully st₂) avail none st
      | l₀ :: _ => do
        let b ← probeLevel st.results target none l₀
        .ok (b, st)
    else do
      let b ← probeAll st.results target none (st.keyss.take (n + 1))
      mrExtGo target (fun t st₂ => mrHelper avail tolerance n t fully st₂) avail b st

/-- Inner loop of the full-search block: one available value paired with
every key one level below the fully searched one.  The expression for the
old key is read once; the series combination is saved first, then the
parallel one (whose value computation divides by val + old_val). -/
def fullSearchOlds (idx : ℕ) (v : ℚ) : List ℚ → MRState → Except PyErr MRState
  | [], st => .ok st
  | old :: rest, st => do
    let expr ← match dictFind st.results old with
      | some e => Except.ok e
      | none => Except.error PyErr.keyError
    let st₁ ← saveNewAt st idx (v + old) (.op .add :: .val v :: expr)
    if v + old = 0 then .error .zeroDivisionError
    else do
      let st₂ ← saveNewAt st₁ idx ((v * old) / (v + old)) (.op .par :: .val v :: expr)
      fullSearchOlds idx v rest st₂

/-- Outer loop of the full-search block over the available values.  The
iterated key list results_keyss[nfs - 2] is read once: the block only
inserts at level index nfs - 1, so the snapshot stays exact. -/
def fullSearchVals (idx : ℕ) (olds : List ℚ) : List ℚ → MRState → Except PyErr MRState
  | [], st => .ok st
  | v :: rest, st => do
    let st₁ ← fullSearchOlds idx v olds st
    fullSearchVals idx olds rest st₁

/-- The full-search block of the top loop (circuit.py lines 560-580): when
1 < num_comps - lag <= num_comps_full_search, combine every available value
with every key of level num_comps - lag - 1 and store the new values one
level up. -/
def mrFS (avail : List ℚ) (nfsearch nfslag : ℤ) (num : ℕ) (st : MRState) :
    Except PyErr MRState :=
  if 1 < (num : ℤ) - nfslag ∧ (num : ℤ) - nfslag ≤ nfsearch then do
    let olds ← match st.keyss.get? (((num : ℤ) - nfslag).toNat - 2) with
      | some ks => Except.ok ks
      | none => Except.error PyErr.indexError
    fullSearchVals (((num : ℤ) - nfslag).toNat - 1) olds avail st
  else .ok st

/-- One iteration of the top loop of make_resistance for a given
num_comps: extend results_keyss, run the full-search block, then call the
helper with max(min(num_comps - lag, num_comps_full_search), 1) as the fully
searched depth. -/
def mrRound (avail : List ℚ) (target tolerance : ℚ) (nfsearch nfslag : ℤ)
    (num : ℕ) (st : MRState) : Except PyErr (Best × MRState) := do
  let st := if 1 < num then { st with keyss := st.keyss ++ [[]] } else st
  let nfs : ℤ := (num : ℤ) - nfslag
  let st ← mrFS avail nfsearch nfslag num st
  let fully : ℕ := (max (min nfs nfsearch) 1).toNat
  mrHelper avail tolerance num target fully st

/-- The loop for num_comps in range(1, max_num_comps + 1) with its break:
the result carries res[0], res[-1] and the num_comps of the round that
produced them.  A None best value makes the break test
abs(target - res[-1]) raise TypeError; an empty range leaves res unbound,
a Python NameError at the final ExprTree(res[0]). -/
def mrLoop (avail : List ℚ) (target tolerance : ℚ) (nfsearch nfslag : ℤ) :
    List ℕ → MRState → Except PyErr (RPExpr × ℚ × ℕ)
  | [], _ => .error .nameError
  | num :: rest, st => do
    let (b, st₂) ← mrRound avail target tolerance nfsearch nfslag num st
    match b with
    | none => .error .typeError
    | some (e, v) =>
      if |target - v| ≤ tolerance * target then .ok (e, v, num)
      else
        match rest with
        | [] => .ok (e, v, num)
        | _ :: _ => mrLoop avail target tolerance nfsearch nfslag rest st₂

/-- Seeding of the dynamic-programming dictionary: every available value
maps to its one-component expression. -/
def seedResults (avail_vals : List ℚ) : PyDict :=
  avail_vals.foldl (fun d v => dictSet d v [.val v]) []

/-- The state at the start of the search: the seeded dictionary and one
level of sorted keys. -/
def initState (avail_vals : List ℚ) : MRState :=
  let results := seedResults avail_vals
  { results,
    keyss := [List.insertionSort (· ≤ ·) (results.map (fun p => p.1))],
    attempts := [] }

/-- make_resistance (circuit.py lines 531-610) modelled for
max_num_comps ≥ 1; a non-positive bound makes the source iterate over
itertools.count, an unbounded search a total model cannot follow.  The
source finally wraps res[0] in ExprTree; the triple returned here carries
res[0], res[-1] and the component count of the final round, and the
claims apply ExprTree to the first component where the tree matters. -/
def make_resistance (target : ℚ) (max_num_comps : ℕ) (tolerance : ℚ)
    (avail_vals : List ℚ) (num_comps_full_search num_comps_full_search_lag : ℤ) :
    Except PyErr (RPExpr × ℚ × ℕ) :=
  mrLoop avail_vals target tolerance num_comps_full_search num_comps_full_search_lag
    (List.range' 1 max_num_comps) (initState avail_vals)

/-- Final state variant of make_resistance: identical search, but the
result also exposes the dynamic-programming state at return, so that
theorems can inspect the dictionary a finished call built.  none stands
for the rounds that broke out early only in the sense that mrLoopSt stops
exactly where mrLoop stops. -/
def mrLoopSt (avail : List ℚ) (target tolerance : ℚ) (nfsearch nfslag : ℤ) :
    List ℕ → MRState → Except PyErr ((RPExpr × ℚ × ℕ) × MRState)
  | [], _ => .error .nameError
  | num :: rest, st => do
    let (b, st₂) ← mrRound avail target tolerance nfsearch nfslag num st
    match b with
    | none => .error .typeError
    | some (e, v) =>
      if |target - v| ≤ tolerance * target then .ok ((e, v, num), st₂)
      else
        match rest with
        | [] => .ok ((e, v, num), st₂)
        | _ :: _ => mrLoopSt avail target tolerance nfsearch nfslag rest st₂

/-- make_resistance together with its final dynamic-programming state. -/
def make_resistance_st (target : ℚ) (max_num_comps : ℕ) (tolerance : ℚ)
    (avail_vals : List ℚ) (num_comps_full_search num_comps_full_search_lag : ℤ) :
    Except PyErr ((RPExpr × ℚ × ℕ) × MRState) :=
  mrLoopSt avail_vals target tolerance num_comps_full_search num_comps_full_search_lag
    (List.range' 1 max_num_comps) (initState avail_vals)

/-! ### The make-resistance CLI binding (util.py lines 370-463) -/

/-- The formal parameter names of make_resistance (circuit.py lines
531-539); the function has no other parameter and no keyword catch-all. -/
def make_resistance_params : List String :=
  ["target", "max_num_comps", "tolerance", "avail_vals", "avail_ops",
   "num_comps_full_search", "num_comps_full_search_lag"]

/-- The keyword-argument names the make-resistance subcommand of util.py
passes in its call to eppp.make_resistance (util.py lines 448-454),
besides the positional target. -/
def util_make_resistance_kwargs : List String :=
  ["avail_vals", "tolerance", "max_num_comps", "topology"]

/-- The shape of every expression the search stores or returns: a single
value, or an operator applied to a value and a stored expression. -/
inductive Stored : RPExpr → Prop where
  | single (v : ℚ) : Stored [.val v]
  | comp (o : Oper) (v : ℚ) (e : RPExpr) : Stored e → Stored (.op o :: .val v :: e)

/-- The dynamic-programming invariant: every key recorded at level index i
of results_keyss is bound in the dictionary to a stored expression with
exactly i + 1 components. -/
def StoreInv (st : MRState) : Prop :=
  ∀ (i : ℕ) (v : ℚ), v ∈ st.keyss.getD i [] →
    ∃ e, dictFind st.results v = some e ∧ Stored e ∧ nvals e = i + 1

/-- What the helper guarantees about a best candidate under a budget: a
stored expression with at most that many components. -/
def BestOK (n : ℕ) (b : Best) : Prop :=
  ∀ e v, b = some (e, v) → Stored e ∧ nvals e ≤ n

/-! ## Theorems.  First, small facts about the Python primitives. -/

theorem pyGet_last {α : Type} (a : List α) (x : α) (h : a.getLast? = some x) :
    pyGet a (-1) = .ok x := by
  have hne : a ≠ [] := by
    intro he
    subst he
    simp at h
  have hlen : 0 < a.length := List.length_pos.mpr hne
  have hg : a.get? (((-1 : ℤ) + a.length).toNat) = some x := by
    rw [List.get?_eq_getElem?]
    have hi : ((-1 : ℤ) + a.length).toNat = a.length - 1 := by omega
    rw [hi, ← List.getLast?_eq_getElem?]
    exact h
  simp only [pyGet]
  have hc : (-1 : ℤ) < 0 := by norm_num
  rw [if_pos hc, if_pos (by omega : (0 : ℤ) ≤ -1 + a.length), hg]

theorem pyGet_mem {α : Type} (a : List α) (i : ℤ) (x : α) (h : pyGet a i = .ok x) :
    x ∈ a := by
  simp only [pyGet] at h
  set j : ℤ := if i < 0 then i + a.length else i with hj
  by_cases h0 : 0 ≤ j
  · rw [if_pos h0] at h
    cases hg : a.get? j.toNat with
    | none => rw [hg] at h; exact absurd h (by simp)
    | some y =>
      rw [hg] at h
      cases h
      exact List.get?_mem hg
  · rw [if_neg h0] at h
    exact absurd h (by simp)

theorem dictFind_dictSet_self (d : PyDict) (k : ℚ) (v : RPExpr) :
    dictFind (dictSet d k v) k = some v := by
  induction d with
  | nil => simp [dictFind, dictSet]
  | cons p d ih =>
    by_cases hp : p.1 = k <;> simp [dictFind, dictSet, hp, ih]

theorem dictFind_dictSet_other (d : PyDict) (k k₂ : ℚ) (v : RPExpr) (hne : k₂ ≠ k) :
    dictFind (dictSet d k v) k₂ = dictFind d k₂ := by
  induction d with
  | nil => simp [dictFind, dictSet, Ne.symm hne]
  | cons p d ih =>
    by_cases hp : p.1 = k
    · have hp2 : ¬ (p.1 = k₂) := by
        rw [hp]
        exact Ne.symm hne
      simp only [dictSet, if_pos hp, dictFind]
      rw [if_neg (Ne.symm hne), if_neg hp2]
    · simp [dictSet, if_neg hp, dictFind, ih]

theorem ascChain_iff (l : List ℚ) : ascChain l = true ↔ l.Chain' (· < ·) := by
  induction l with
  | nil => simp [ascChain]
  | cons a l ih =>
    cases l with
    | nil => simp [ascChain]
    | cons b rest =>
      rw [ascChain, List.chain'_cons, Bool.and_eq_true, decide_eq_true_eq]
      exact and_congr Iff.rfl ih

theorem bind_ok {ε α β : Type} (a : α) (f : α → Except ε β) :
    (Except.ok a >>= f) = f a := rfl

theorem bind_err {ε α β : Type} (e : ε) (f : α → Except ε β) :
    ((Except.error e : Except ε α) >>= f) = .error e := rfl

/-! ## Catalogue generator theorems -/

theorem upLoop_inv (basic : List ℚ) (maxv headB lastB : ℚ)
    (hbh : basic.head? = some headB) (hbl : basic.getLast? = some lastB)
    (hbc : basic.Chain' (· < ·)) (hdec : lastB < 10 * headB) :
    ∀ fuel (avail : List ℚ) (mult : ℚ) (out : List ℚ),
      avail.Chain' (· < ·) → avail.head? = some headB →
      avail.getLast? = some (lastB * mult / 10) → 0 < mult →
      upLoop basic maxv fuel avail mult = .ok out →
      out.Chain' (· < ·) ∧ out.head? = some headB ∧
        ∃ m, 0 < m ∧ out.getLast? = some (lastB * m / 10) := by
  have hbne : basic ≠ [] := by
    intro he
    rw [he] at hbh
    simp at hbh
  intro fuel
  induction fuel with
  | zero =>
    intro avail mult out _ _ _ _ h
    exact absurd h (by simp [upLoop])
  | succ fuel ih =>
    intro avail mult out hc hh hl hm h
    have hane : avail ≠ [] := by
      intro he
      rw [he] at hh
      simp at hh
    rw [upLoop, pyGet_last avail _ hl] at h
    rw [bind_ok] at h
    by_cases hle : lastB * mult / 10 ≤ maxv
    · rw [if_pos hle] at h
      have hmapne : basic.map (fun x => x * mult) ≠ [] := by
        simp [hbne]
      have hc₂ : (basic.map (fun x => x * mult)).Chain' (· < ·) := by
        rw [List.chain'_map]
        exact hbc.imp (fun a b hab => by
          exact mul_lt_mul_of_pos_right hab hm)
      have hlink : ∀ x ∈ avail.getLast?, ∀ y ∈ (basic.map (fun x => x * mult)).head?,
          x < y := by
        intro x hx y hy
        rw [hl] at hx
        rw [List.head?_map, hbh] at hy
        simp only [Option.mem_def, Option.some_inj, Option.map_some'] at hx hy
        subst hx
        subst hy
        have h10 : lastB * mult < 10 * headB * mult := mul_lt_mul_of_pos_right hdec hm
        rw [div_lt_iff₀ (by norm_num : (0:ℚ) < 10)]
        calc lastB * mult < 10 * headB * mult := h10
        _ = headB * mult * 10 := by ring
      have := ih (avail ++ basic.map (fun x => x * mult)) (mult * 10) out
        (hc.append hc₂ hlink)
        (by rw [List.head?_append_of_ne_nil _ hane]; exact hh)
        (by
          rw [List.getLast?_append_of_ne_nil _ hmapne, List.getLast?_map, hbl]
          simp only [Option.map_some', Option.some_inj]
          ring)
        (by positivity) h
      exact this
    · rw [if_neg hle] at h
      cases h
      exact ⟨hc, hh, mult, hm, hl⟩

theorem downLoop_inv (basicR : List ℚ) (minv headB lastB : ℚ)
    (hbh : basicR.head? = some lastB) (hbl : basicR.getLast? = some headB)
    (hbc : basicR.Chain' (· > ·)) (hdec : lastB < 10 * headB) :
    ∀ fuel (avail : List ℚ) (d : ℚ) (out : List ℚ),
      avail.Chain' (· > ·) → avail.getLast? = some (headB * 10 / d) → 0 < d →
      downLoop basicR minv fuel avail d = .ok out →
      out.Chain' (· > ·) := by
  have hbne : basicR ≠ [] := by
    intro he
    rw [he] at hbh
    simp at hbh
  intro fuel
  induction fuel with
  | zero =>
    intro avail d out _ _ _ h
    exact absurd h (by simp [downLoop])
  | succ fuel ih =>
    intro avail d out hc hl hd h
    rw [downLoop, pyGet_last avail _ hl, bind_ok] at h
    by_cases hle : minv ≤ headB * 10 / d
    · rw [if_pos hle] at h
      have hmapne : basicR.map (fun x => x / d) ≠ [] := by
        simp [hbne]
      have hc₂ : (basicR.map (fun x => x / d)).Chain' (· > ·) := by
        rw [List.chain'_map]
        refine hbc.imp (fun a b hab => ?_)
        rw [gt_iff_lt, div_eq_mul_inv, div_eq_mul_inv]
        exact mul_lt_mul_of_pos_right hab (inv_pos.mpr hd)
      have hlink : ∀ x ∈ avail.getLast?, ∀ y ∈ (basicR.map (fun x => x / d)).head?,
          x > y := by
        intro x hx y hy
        rw [hl] at hx
        rw [List.head?_map, hbh] at hy
        simp only [Option.mem_def, Option.some_inj, Option.map_some'] at hx hy
        subst hx
        subst hy
        rw [gt_iff_lt, div_eq_mul_inv, div_eq_mul_inv]
        have : lastB < headB * 10 := by linarith
        exact mul_lt_mul_of_pos_right this (inv_pos.mpr hd)
      exact ih (avail ++ basicR.map (fun x => x / d)) (d * 10) out
        (hc.append hc₂ hlink)
        (by
          rw [List.getLast?_append_of_ne_nil _ hmapne, List.getLast?_map, hbl]
          simp only [Option.map_some', Option.some_inj]
          ring)
        (by positivity) h
    · rw [if_neg hle] at h
      cases h
      exact hc

theorem get_avail_vals_run (series : SeriesArg) (min_val max_val : ℚ) (basic : List ℚ)
    (hb : basicOf series = some basic) (hv : validBase basic) (l : List ℚ)
    (cl : Option (List ℚ)) (h : get_avail_vals series min_val max_val = .ok (l, cl)) :
    l.Chain' (· < ·) ∧ ∀ x ∈ l, min_val ≤ x ∧ x ≤ max_val := by
  obtain ⟨hne, hchainB, _hpos, hdec⟩ := hv
  have hchain := (ascChain_iff basic).mp hchainB
  obtain ⟨b₀, bs, rfl⟩ := List.exists_cons_of_ne_nil hne
  cases hgl : (b₀ :: bs).getLast? with
  | none => simp at hgl
  | some g =>
  rw [List.getLastD_eq_getLast?, hgl] at hdec
  simp only [Option.getD_some, List.headI] at hdec
  simp only [get_avail_vals, hb, bind_ok] at h
  cases hu : upLoop (b₀ :: bs) max_val availFuel (b₀ :: bs) 10 with
  | error e =>
    rw [hu, bind_err] at h
    exact absurd h (by simp)
  | ok up =>
  rw [hu, bind_ok] at h
  cases hd : downLoop ((b₀ :: bs).reverse) min_val availFuel up.reverse 10 with
  | error e =>
    rw [hd, bind_err] at h
    exact absurd h (by simp)
  | ok down =>
  rw [hd, bind_ok] at h
  rw [Except.ok.injEq, Prod.mk.injEq] at h
  obtain ⟨hl, _⟩ := h
  subst hl
  have hup := upLoop_inv (b₀ :: bs) max_val b₀ g rfl hgl hchain hdec availFuel
    (b₀ :: bs) 10 up hchain rfl (by rw [hgl]; congr 1; ring) (by norm_num) hu
  obtain ⟨hupc, huph, m, hm, hupl⟩ := hup
  have hrevgt : up.reverse.Chain' (· > ·) := by
    rw [List.chain'_reverse]
    exact hupc.imp (fun a b hab => hab)
  have hbr_h : ((b₀ :: bs).reverse).head? = some g := by
    rw [List.head?_reverse]
    exact hgl
  have hbr_l : ((b₀ :: bs).reverse).getLast? = some b₀ := by
    rw [List.getLast?_reverse]
    rfl
  have hbr_c : ((b₀ :: bs).reverse).Chain' (· > ·) := by
    rw [List.chain'_reverse]
    exact hchain.imp (fun a b hab => hab)
  have hdown := downLoop_inv ((b₀ :: bs).reverse) min_val b₀ g hbr_h hbr_l hbr_c hdec
    availFuel up.reverse 10 down hrevgt
    (by rw [List.getLast?_reverse, huph]; congr 1; ring) (by norm_num) hd
  have hfinal : down.reverse.Chain' (· < ·) := by
    rw [List.chain'_reverse]
    exact hdown.imp (fun a b hab => hab)
  constructor
  · exact (hfinal.sublist ((List.filter_sublist _).trans (List.filter_sublist _))).imp
      (fun a b hab => hab)
  · intro x hx
    rw [List.mem_filter] at hx
    obtain ⟨hx1, hx2⟩ := hx
    rw [List.mem_filter] at hx1
    obtain ⟨_, hx3⟩ := hx1
    constructor
    · exact of_decide_eq_true hx2
    · exact of_decide_eq_true hx3

/-- C6.  For every valid series name (or explicit mantissa list, validity
being the validBase conditions every named series satisfies) and every
band with min_value ≤ max_value, the list returned by get_avail_vals for
resistors is strictly ascending (hence duplicate-free) and every element
x satisfies min_value ≤ x ≤ max_value. -/
theorem get_avail_vals_sorted_in_band (series : SeriesArg) (min_val max_val : ℚ)
    (basic : List ℚ) (hb : basicOf series = some basic) (hv : validBase basic)
    (_hband : min_val ≤ max_val) (l : List ℚ) (cl : Option (List ℚ))
    (h : get_avail_vals series min_val max_val = .ok (l, cl)) :
    l.Chain' (· < ·) ∧ ∀ x ∈ l, min_val ≤ x ∧ x ≤ max_val :=
  get_avail_vals_run series min_val max_val basic hb hv l cl h

/-- Witness for C6 at the E6 series over the band [10, 200]. -/
theorem get_avail_vals_sorted_in_band_witness :
    basicOf (.name "E6") = some (deriveSeries 6 E24) ∧
      validBase (deriveSeries 6 E24) ∧ (10 : ℚ) ≤ 200 ∧
      get_avail_vals (.name "E6") 10 200 =
        .ok ([10, 15, 22, 33, 47, 68, 100, 150], none) ∧
      (([10, 15, 22, 33, 47, 68, 100, 150] : List ℚ).Chain' (· < ·) ∧
        ∀ x ∈ ([10, 15, 22, 33, 47, 68, 100, 150] : List ℚ), 10 ≤ x ∧ x ≤ 200) :=
  ⟨rfl, by decide, by norm_num, by decide,
    get_avail_vals_sorted_in_band (.name "E6") 10 200 (deriveSeries 6 E24) rfl
      (by decide) (by norm_num) _ none (by decide)⟩

/-- C7 (amended).  A band with min_value > max_value does not raise any
error: get_avail_vals returns normally, and the returned list is empty.
The source has no InvalidRange validation at all. -/
theorem get_avail_vals_inverted_band_empty (series : SeriesArg) (min_val max_val : ℚ)
    (hlt : max_val < min_val) (l : List ℚ) (cl : Option (List ℚ))
    (h : get_avail_vals series min_val max_val = .ok (l, cl)) : l = [] := by
  cases hbs : basicOf series with
  | none =>
    rw [get_avail_vals, hbs] at h
    exact absurd h (by simp [bind_err])
  | some basic =>
  simp only [get_avail_vals, hbs, bind_ok] at h
  cases hu : upLoop basic max_val availFuel basic 10 with
  | error e =>
    rw [hu, bind_err] at h
    exact absurd h (by simp)
  | ok up =>
  rw [hu, bind_ok] at h
  cases hd : downLoop basic.reverse min_val availFuel up.reverse 10 with
  | error e =>
    rw [hd, bind_err] at h
    exact absurd h (by simp)
  | ok down =>
  rw [hd, bind_ok] at h
  rw [Except.ok.injEq, Prod.mk.injEq] at h
  obtain ⟨hl, _⟩ := h
  subst hl
  apply List.eq_nil_iff_forall_not_mem.mpr
  intro x hx
  rw [List.mem_filter] at hx
  obtain ⟨hx1, hx2⟩ := hx
  rw [List.mem_filter] at hx1
  obtain ⟨_, hx3⟩ := hx1
  have h1 : min_val ≤ x := of_decide_eq_true hx2
  have h2 : x ≤ max_val := of_decide_eq_true hx3
  linarith

/-- Counterexample to C7 as stated: with min_value = 100 > 10 = max_value
the call returns normally with the empty list instead of failing. -/
theorem get_avail_vals_inverted_band_cex :
    get_avail_vals (.name "E6") 100 10 = .ok ([], none) := by decide

/-- Witness for the amended C7. -/
theorem get_avail_vals_inverted_band_empty_witness :
    (10 : ℚ) < 100 ∧ ([] : List ℚ) = [] :=
  ⟨by norm_num,
    get_avail_vals_inverted_band_empty (.name "E6") 100 10 (by norm_num) [] none
      (by decide)⟩

/-- C10.  When the series argument is an explicit caller-owned mantissa
list, the call leaves that list reversed by return time (the source
aliases it and reverses it in place, and never restores it); a series
name string involves no caller-owned list, so nothing caller-visible is
mutated. -/
theorem get_avail_vals_mutates_caller_list :
    (∀ (lst : List ℚ) (min_val max_val : ℚ) (res : List ℚ) (cl : Option (List ℚ)),
      get_avail_vals (.explicit lst) min_val max_val = .ok (res, cl) →
        cl = some lst.reverse) ∧
    (∀ (s : String) (min_val max_val : ℚ) (res : List ℚ) (cl : Option (List ℚ)),
      get_avail_vals (.name s) min_val max_val = .ok (res, cl) → cl = none) := by
  constructor
  · intro lst min_val max_val res cl h
    simp only [get_avail_vals, basicOf, bind_ok] at h
    cases hu : upLoop lst max_val availFuel lst 10 with
    | error e =>
      rw [hu, bind_err] at h
      exact absurd h (by simp)
    | ok up =>
    rw [hu, bind_ok] at h
    cases hd : downLoop lst.reverse min_val availFuel up.reverse 10 with
    | error e =>
      rw [hd, bind_err] at h
      exact absurd h (by simp)
    | ok down =>
    rw [hd, bind_ok] at h
    rw [Except.ok.injEq, Prod.mk.injEq] at h
    exact h.2.symm
  · intro s min_val max_val res cl h
    cases hbs : avail_vals_dict s with
    | none =>
      rw [get_avail_vals] at h
      simp only [basicOf, hbs] at h
      exact absurd h (by simp [bind_err])
    | some basic =>
    simp only [get_avail_vals, basicOf, hbs, bind_ok] at h
    cases hu : upLoop basic max_val availFuel basic 10 with
    | error e =>
      rw [hu, bind_err] at h
      exact absurd h (by simp)
    | ok up =>
    rw [hu, bind_ok] at h
    cases hd : downLoop basic.reverse min_val availFuel up.reverse 10 with
    | error e =>
      rw [hd, bind_err] at h
      exact absurd h (by simp)
    | ok down =>
    rw [hd, bind_ok] at h
    rw [Except.ok.injEq, Prod.mk.injEq] at h
    exact h.2.symm

/-- Witness for C10: a concrete explicit list comes back reversed. -/
theorem get_avail_vals_mutates_caller_list_witness :
    get_avail_vals (.explicit [10, 15]) 10 200 = .ok ([10, 15, 100, 150], some [15, 10]) ∧
      (some [15, 10] : Option (List ℚ)) = some (([10, 15] : List ℚ).reverse) :=
  ⟨by decide,
    get_avail_vals_mutates_caller_list.1 [10, 15] 10 200 [10, 15, 100, 150]
      (some [15, 10]) (by decide)⟩

/-! ## Polish evaluator theorems -/

theorem pyGet_nat {α : Type} (a : List α) (n : ℕ) (h : n < a.length) :
    pyGet a (n : ℤ) = .ok a[n] := by
  have h1 : ¬ ((n : ℤ) < 0) := by omega
  simp only [pyGet, if_neg h1]
  rw [if_pos (by omega : (0 : ℤ) ≤ (n : ℤ))]
  have h2 : ((n : ℤ)).toNat = n := by omega
  rw [h2, List.get?_eq_getElem?, List.getElem?_eq_getElem h]

theorem pySet_nat {α : Type} (a : List α) (n : ℕ) (x : α) (h : n < a.length) :
    pySet a (n : ℤ) x = .ok (a.set n x) := by
  have h1 : ¬ ((n : ℤ) < 0) := by omega
  simp only [pySet, if_neg h1]
  have h2 : ((n : ℤ)).toNat = n := by omega
  rw [if_pos (by constructor <;> omega), h2]

theorem pyGetQ_nat (a : List PElem) (n : ℕ) (q : ℚ) (h : n < a.length)
    (hq : a[n] = .val q) : pyGetQ a (n : ℤ) = .ok q := by
  rw [pyGetQ, pyGet_nat a n h, hq]
  rfl

theorem take_set_of_le {α : Type} (l : List α) (m k : ℕ) (a : α) (h : k ≤ m) :
    (l.set m a).take k = l.take k := by
  induction l generalizing m k with
  | nil => simp
  | cons x xs ih =>
    cases m with
    | zero =>
      have : k = 0 := by omega
      subst this
      simp
    | succ m =>
      cases k with
      | zero => simp
      | succ k =>
        simp only [List.set_cons_succ, List.take_succ_cons]
        rw [ih m k (by omega)]

theorem drop_set_eq_cons {α : Type} (l : List α) (m : ℕ) (a : α) (h : m < l.length) :
    (l.set m a).drop m = a :: l.drop (m + 1) := by
  induction l generalizing m with
  | nil => simp at h
  | cons x xs ih =>
    cases m with
    | zero => simp
    | succ m =>
      simp only [List.set_cons_succ, List.drop_succ_cons]
      exact ih m (by simpa using h)

/-- Positive operands make both the strict operator application and the
non-degenerate denotation agree and stay positive. -/
theorem applyOper_pos (o : Oper) (a b : ℚ) (ha : 0 < a) (hb : 0 < b) :
    applyOper o a b = .ok (opDenote o a b) ∧ 0 < opDenote o a b := by
  cases o with
  | add =>
    exact ⟨rfl, by simp only [opDenote]; positivity⟩
  | par =>
    have hab : 0 < a + b := by linarith
    have hinv : 1 / a + 1 / b = (a + b) / (a * b) := by
      field_simp
      ring
    constructor
    · simp only [applyOper, parallel_impedance, opDenote]
      rw [if_neg (by push_neg; constructor <;> positivity)]
      rw [if_neg (by rw [hinv]; positivity)]
      rw [hinv]
      congr 1
      rw [one_div_div]
    · simp only [opDenote]
      positivity

/-- Main lemma for the strict evaluator: on a well-formed suffix with a
positive stack it matches the specification machine and produces a
single positive value. -/
theorem strict_run : ∀ (fuel : ℕ) (r : List PElem) (stack : List ℚ),
    scanOk stack.length r = true → 2 * r.length + stack.length < fuel →
    (∀ q ∈ stack, 0 < q) → (∀ q : ℚ, .val q ∈ r → 0 < q) →
    ∃ v, 0 < v ∧ stackRun r stack = some [v] ∧ polishLoop fuel r stack = .ok [v] := by
  intro fuel
  induction fuel with
  | zero =>
    intro r stack _ hm _ _
    omega
  | succ fuel ih =>
    intro r stack hscan hm hstack hvals
    cases r with
    | nil =>
      simp only [scanOk, beq_iff_eq] at hscan
      cases stack with
      | nil => simp at hscan
      | cons v rest =>
        have : rest = [] := by
          simpa using hscan
        subst this
        exact ⟨v, hstack v (by simp), rfl, rfl⟩
    | cons el r₂ =>
      cases el with
      | val q =>
        simp only [scanOk] at hscan
        have hq : 0 < q := hvals q (by simp)
        obtain ⟨v, hv, hrun, hloop⟩ := ih r₂ (q :: stack)
          (by simpa using hscan) (by simp at hm ⊢; omega)
          (by
            intro x hx
            rcases List.mem_cons.mp hx with rfl | hx₂
            · exact hq
            · exact hstack x hx₂)
          (fun x hx => hvals x (List.mem_cons_of_mem _ hx))
        exact ⟨v, hv, hrun, hloop⟩
      | op o =>
        simp only [scanOk] at hscan
        by_cases hd : 2 ≤ stack.length
        · rw [if_pos hd] at hscan
          obtain ⟨a, stack₁, rfl⟩ := List.exists_cons_of_ne_nil
            (by intro he; rw [he] at hd; simp at hd : stack ≠ [])
          obtain ⟨b, stack₂, rfl⟩ := List.exists_cons_of_ne_nil
            (by intro he; rw [he] at hd; simp at hd : stack₁ ≠ [])
          have ha : 0 < a := hstack a (by simp)
          have hb : 0 < b := hstack b (by simp [List.mem_cons])
          obtain ⟨happ, hpos⟩ := applyOper_pos o a b ha hb
          obtain ⟨v, hv, hrun, hloop⟩ := ih (.val (opDenote o a b) :: r₂)
            (stack₂)
            (by simpa using hscan)
            (by simp at hm ⊢; omega)
            (by
              intro x hx
              exact hstack x (List.mem_cons_of_mem _ (List.mem_cons_of_mem _ hx)))
            (by
              intro x hx
              rcases List.mem_cons.mp hx with hx₁ | hx₂
              · cases hx₁
                exact hpos
              · exact hvals x (List.mem_cons_of_mem _ hx₂))
          refine ⟨v, hv, ?_, ?_⟩
          · simpa [stackRun] using hrun
          · simp only [polishLoop, happ, bind_ok]
            simpa [stackRun] using hloop
        · rw [if_neg hd] at hscan
          simp at hscan

/-- Read off one stack cell from the drop identity. -/
theorem drop_cons_facts {α : Type} (L : List α) (n : ℕ) (x : α) (rest : List α)
    (hdrop : L.drop n = x :: rest) (hn : n < L.length) :
    L[n] = x ∧ L.drop (n + 1) = rest := by
  constructor
  · have h1 : L[n]? = some x := by
      rw [← List.head?_drop, hdrop]
      rfl
    rw [List.getElem?_eq_getElem hn] at h1
    exact Option.some_inj.mp h1
  · have h2 : (L.drop n).drop 1 = rest := by
      rw [hdrop]
      rfl
    rw [List.drop_drop 1 n] at h2
    exact h2

/-- Main simulation lemma for the non-strict evaluator: the in-place loop
computes whatever the specification machine computes on the unread prefix
and the stack laid out in the tail of the working list. -/
theorem nsLoop_sim (v : ℚ) : ∀ (i : ℕ) (L : List PElem) (j : ℤ) (stack : List ℚ),
    (i : ℤ) ≤ j + 1 →
    j + 1 = ((L.length - stack.length : ℕ) : ℤ) →
    L.drop (L.length - stack.length) = stack.map .val →
    stack.length ≤ L.length →
    (∀ q ∈ stack, 0 < q) → (∀ q : ℚ, .val q ∈ L.take i → 0 < q) →
    stackRun ((L.take i).reverse) stack = some [v] →
    nsLoop i L j = .ok v := by
  intro i
  induction i with
  | zero =>
    intro L j stack _ hj hdrop hlen hstack _ hrun
    simp only [List.take_zero, List.reverse_nil, stackRun] at hrun
    obtain rfl : stack = [v] := Option.some_inj.mp hrun
    simp only [List.length_cons, List.length_nil, Nat.zero_add] at hj hdrop hlen
    have hnlt : L.length - 1 < L.length := by omega
    obtain ⟨hL, _⟩ := drop_cons_facts L (L.length - 1) (.val v) [] (by simpa using hdrop)
      hnlt
    simp only [nsLoop]
    rw [hj]
    exact pyGetQ_nat L (L.length - 1) v hnlt hL
  | succ i ih =>
    intro L j stack hij hj hdrop hlen hstack hvals hrun
    set n := L.length - stack.length with hn
    have hin : i < n := by omega
    have hnle : n ≤ L.length := by omega
    have hiL : i < L.length := by omega
    have htake : L.take (i + 1) = L.take i ++ [L[i]] := by
      rw [List.take_succ, List.getElem?_eq_getElem hiL]
      rfl
    rw [htake] at hrun hvals
    simp only [List.reverse_append, List.reverse_cons, List.reverse_nil,
      List.nil_append, List.cons_append] at hrun
    have hvals₁ : ∀ q : ℚ, .val q ∈ L.take i → 0 < q := by
      intro q hq
      exact hvals q (List.mem_append.mpr (Or.inl hq))
    simp only [nsLoop]
    rw [pyGet_nat L i hiL, bind_ok]
    cases hL : L[i] with
    | val q =>
      rw [hL] at hrun
      simp only [stackRun] at hrun
      have hq : 0 < q := hvals q (by rw [hL]; simp)
      have hn1 : 1 ≤ n := by omega
      have hjn : j = ((n - 1 : ℕ) : ℤ) := by omega
      have hset : pySetQ L j q = .ok (L.set (n - 1) (.val q)) := by
        rw [hjn, pySetQ]
        exact pySet_nat L (n - 1) (.val q) (by omega)
      show (pySetQ L j q >>= fun expr₂ => nsLoop i expr₂ (j - 1)) = Except.ok v
      rw [hset, bind_ok]
      have hlen₂ : (q :: stack).length ≤ (L.set (n - 1) (.val q)).length := by
        simp
        omega
      have hn₂ : (L.set (n - 1) (.val q)).length - (q :: stack).length = n - 1 := by
        simp
        omega
      refine ih (L.set (n - 1) (.val q)) (j - 1) (q :: stack) (by omega)
        (by rw [hn₂]; omega) ?_ hlen₂ ?_ ?_ ?_
      · rw [hn₂, drop_set_eq_cons L (n - 1) (.val q) (by omega)]
        have : n - 1 + 1 = n := by omega
        rw [this, hdrop]
        rfl
      · intro x hx
        rcases List.mem_cons.mp hx with rfl | hx₂
        · exact hq
        · exact hstack x hx₂
      · intro x hx
        rw [take_set_of_le L (n - 1) i (.val q) (by omega)] at hx
        exact hvals₁ x hx
      · rw [take_set_of_le L (n - 1) i (.val q) (by omega)]
        exact hrun
    | op o =>
      rw [hL] at hrun
      cases stack with
      | nil =>
        simp [stackRun] at hrun
      | cons a stack₁ =>
      cases stack₁ with
      | nil =>
        simp [stackRun] at hrun
      | cons b stack₂ =>
      simp only [stackRun] at hrun
      simp only [List.length_cons] at hn hlen
      have ha : 0 < a := hstack a (by simp)
      have hb : 0 < b := hstack b (by simp)
      have hw : 0 < opDenote o a b := (applyOper_pos o a b ha hb).2
      have hlen2 : n + 2 ≤ L.length := by omega
      obtain ⟨hLn, hdropn1⟩ := drop_cons_facts L n (.val a) _ (by simpa using hdrop)
        (by omega)
      obtain ⟨hLn1, hdropn2⟩ := drop_cons_facts L (n + 1) (.val b) _ hdropn1 (by omega)
      have hreada : pyGetQ L (j + 1 + 1) = .ok b := by
        have : j + 1 + 1 = ((n + 1 : ℕ) : ℤ) := by omega
        rw [this]
        exact pyGetQ_nat L (n + 1) b (by omega) hLn1
      have hreadb : pyGetQ L (j + 1) = .ok a := by
        have : j + 1 = ((n : ℕ) : ℤ) := by omega
        rw [this]
        exact pyGetQ_nat L n a (by omega) hLn
      have hset : ∀ w : ℚ, pySetQ L (j + 1 + 1) w = .ok (L.set (n + 1) (.val w)) := by
        intro w
        have : j + 1 + 1 = ((n + 1 : ℕ) : ℤ) := by omega
        rw [this, pySetQ]
        exact pySet_nat L (n + 1) (.val w) (by omega)
      have hdropw : ∀ w : ℚ,
          (L.set (n + 1) (.val w)).drop ((L.set (n + 1) (.val w)).length -
            (w :: stack₂).length) = (w :: stack₂).map .val := by
        intro w
        have hlen₃ : (L.set (n + 1) (.val w)).length - (w :: stack₂).length = n + 1 := by
          simp only [List.length_set, List.length_cons]
          omega
        rw [hlen₃, drop_set_eq_cons L (n + 1) (.val w) (by omega), hdropn2]
        rfl
      have hrec : ∀ w : ℚ, w = opDenote o a b →
          nsLoop i (L.set (n + 1) (.val w)) (j + 1) = .ok v := by
        intro w hweq
        have hlen₃ : (L.set (n + 1) (.val w)).length - (w :: stack₂).length = n + 1 := by
          simp only [List.length_set, List.length_cons]
          omega
        refine ih (L.set (n + 1) (.val w)) (j + 1) (w :: stack₂) (by omega)
          (by rw [hlen₃]; omega) (hdropw w)
          (by simp only [List.length_set, List.length_cons]; omega) ?_ ?_ ?_
        · intro x hx
          rcases List.mem_cons.mp hx with rfl | hx₂
          · rw [hweq] at *
            exact hw
          · exact hstack x (by simp [hx₂])
        · intro x hx
          rw [take_set_of_le L (n + 1) i (.val w) (by omega)] at hx
          exact hvals₁ x hx
        · rw [take_set_of_le L (n + 1) i (.val w) (by omega), hweq]
          exact hrun
      cases o with
      | par =>
        show (pyGetQ L (j + 1 + 1) >>= fun a =>
            pyGetQ L (j + 1) >>= fun b =>
              if a + b = 0 then Except.error PyErr.zeroDivisionError
              else pySetQ L (j + 1 + 1) (a * b / (a + b)) >>= fun expr₂ =>
                nsLoop i expr₂ (j + 1)) = Except.ok v
        rw [hreada, bind_ok, hreadb, bind_ok]
        rw [if_neg (by positivity : ¬ (b + a = 0))]
        rw [hset ((b * a) / (b + a)), bind_ok]
        exact hrec _ (by simp only [opDenote]; ring)
      | add =>
        show (pyGetQ L (j + 1 + 1) >>= fun a =>
            pyGetQ L (j + 1) >>= fun b =>
              pySetQ L (j + 1 + 1) (a + b) >>= fun expr₂ =>
                nsLoop i expr₂ (j + 1)) = Except.ok v
        rw [hreada, bind_ok, hreadb, bind_ok]
        rw [hset (b + a), bind_ok]
        exact hrec _ (by simp only [opDenote]; ring)

/-- C8.  For every well-formed reverse-polish sequence with strictly
positive (finite) rational values and only the series and parallel
operators, the strict stack-machine evaluator reduces the sequence to a
one-element stack holding a value v, and the non-strict evaluator returns
that same v. -/
theorem polish_eval_equiv (e : List PElem) (hwf : wfRP e) (hpos : posRP e) :
    ∃ v : ℚ, 0 < v ∧ _polish_eval e = .ok [v] ∧ _polish_eval_non_strict e = .ok v := by
  have hposr : ∀ q : ℚ, .val q ∈ e.reverse → 0 < q := by
    intro q hq
    have := hpos (.val q) (List.mem_reverse.mp hq)
    simpa [posElem] using this
  obtain ⟨v, hv, hrunSpec, hstrict⟩ := strict_run (2 * e.length + 1) e.reverse []
    (by simpa using hwf) (by simp) (by simp) hposr
  refine ⟨v, hv, ?_, ?_⟩
  · rw [_polish_eval]
    exact hstrict
  · cases hr : e.reverse with
    | nil =>
      rw [hr] at hrunSpec
      simp [stackRun] at hrunSpec
    | cons el r₁ =>
      have he : e = (el :: r₁).reverse := by
        rw [← hr, List.reverse_reverse]
      cases el with
      | op o =>
        rw [hr] at hrunSpec
        simp [stackRun] at hrunSpec
      | val q₁ =>
      rw [hr] at hrunSpec
      simp only [stackRun] at hrunSpec
      cases r₁ with
      | nil =>
        have hv₁ : q₁ = v := by
          simpa [stackRun] using hrunSpec
        subst hv₁
        rw [he]
        rfl
      | cons el₂ r₂ =>
      cases el₂ with
      | op o =>
        simp [stackRun] at hrunSpec
      | val q₂ =>
      simp only [stackRun] at hrunSpec
      have hq₁ : 0 < q₁ := hposr q₁ (by rw [hr]; simp)
      have hq₂ : 0 < q₂ := hposr q₂ (by rw [hr]; simp)
      have heL : e = r₂.reverse ++ [.val q₂, .val q₁] := by
        rw [he]
        simp

      have hlenL : e.length = r₂.length + 2 := by
        rw [heL]
        simp
      have htakeL : e.take r₂.length = r₂.reverse := by
        rw [heL]
        have : r₂.length = r₂.reverse.length := (List.length_reverse r₂).symm
        rw [this, List.take_left]
      have hdropL : e.drop r₂.length = [.val q₂, .val q₁] := by
        rw [heL]
        have : r₂.length = r₂.reverse.length := (List.length_reverse r₂).symm
        rw [this, List.drop_left]
      have hns := nsLoop_sim v r₂.length e (((r₂.length : ℤ)) - 1) [q₂, q₁]
        (by omega) (by simp [hlenL]) (by
          have : e.length - ([q₂, q₁] : List ℚ).length = r₂.length := by
            simp [hlenL]
          rw [this, hdropL]
          rfl)
        (by simp [hlenL]) (by
          intro x hx
          rcases List.mem_cons.mp hx with rfl | hx₂
          · exact hq₂
          · rcases List.mem_cons.mp hx₂ with rfl | hx₃
            · exact hq₁
            · simp at hx₃)
        (by
          intro q hq
          have := List.mem_of_mem_take hq
          have : posElem (.val q) = true := hpos _ this
          simpa [posElem] using this)
        (by rw [htakeL, List.reverse_reverse]; exact hrunSpec)
      rw [_polish_eval_non_strict]
      have h1 : e.length - 2 = r₂.length := by omega
      have h2 : (e.length : ℤ) - 3 = (r₂.length : ℤ) - 1 := by
        rw [hlenL]
        push_cast
        ring
      rw [h1, h2]
      exact hns

/-- Witness for C8 at a concrete mixed expression. -/
theorem polish_eval_equiv_witness :
    wfRP [.op .add, .val 1, .op .par, .val 10, .val 10] ∧
      posRP [.op .add, .val 1, .op .par, .val 10, .val 10] ∧
      ∃ v : ℚ, 0 < v ∧
        _polish_eval [.op .add, .val 1, .op .par, .val 10, .val 10] = .ok [v] ∧
        _polish_eval_non_strict [.op .add, .val 1, .op .par, .val 10, .val 10] = .ok v :=
  ⟨by decide, by decide,
    polish_eval_equiv [.op .add, .val 1, .op .par, .val 10, .val 10] (by decide)
      (by decide)⟩

/-! ## Expression tree theorems -/

/-- Structural induction over expression trees with list children. -/
theorem ETree.ind (motive : ETree → Prop) (hleaf : ∀ v, motive (.leaf v))
    (hnode : ∀ o cs, (∀ c ∈ cs, motive c) → motive (.node o cs)) : ∀ t, motive t
  | .leaf v => hleaf v
  | .node o cs => hnode o cs (fun c hc =>
      have : sizeOf c < sizeOf (ETree.node o cs) := by
        have h1 : sizeOf c < sizeOf cs := List.sizeOf_lt_of_mem hc
        simp only [ETree.node.sizeOf_spec]
        omega
      ETree.ind motive hleaf hnode c)
termination_by t => sizeOf t

theorem canonList_iff (cs : List ETree) :
    canonList cs = true ↔ ∀ c ∈ cs, canon c = true := by
  induction cs with
  | nil => simp [canonList]
  | cons c cs ih =>
    simp only [canonList, Bool.and_eq_true, ih, List.mem_cons]
    constructor
    · rintro ⟨h1, h2⟩ x (rfl | hx)
      · exact h1
      · exact h2 x hx
    · intro h
      exact ⟨h c (Or.inl rfl), fun x hx => h x (Or.inr hx)⟩

theorem simplifyList_eq_map (cs : List ETree) :
    simplifyList cs = cs.map ETree.simplify := by
  induction cs with
  | nil => rfl
  | cons c cs ih => simp [simplifyList, ih]

theorem mem_sizeInsert (x y : ETree) (l : List ETree) :
    y ∈ sizeInsert x l ↔ y = x ∨ y ∈ l := by
  induction l with
  | nil => simp [sizeInsert]
  | cons z zs ih =>
    simp only [sizeInsert]
    by_cases h : x.getSize ≤ z.getSize
    · simp [h, List.mem_cons]
    · simp only [if_neg h, List.mem_cons, ih]
      tauto

theorem mem_sizeSort (y : ETree) (l : List ETree) : y ∈ sizeSort l ↔ y ∈ l := by
  induction l with
  | nil => simp [sizeSort]
  | cons z zs ih =>
    simp only [sizeSort, mem_sizeInsert, ih, List.mem_cons]

theorem sizeChain_sizeInsert (x : ETree) (l : List ETree)
    (h : sizeChain l = true) : sizeChain (sizeInsert x l) = true := by
  induction l with
  | nil => simp [sizeInsert, sizeChain]
  | cons z zs ih =>
    simp only [sizeInsert]
    by_cases hle : x.getSize ≤ z.getSize
    · rw [if_pos hle]
      simp only [sizeChain, Bool.and_eq_true, decide_eq_true_eq]
      exact ⟨hle, h⟩
    · rw [if_neg hle]
      have hzx : z.getSize ≤ x.getSize := by omega
      cases zs with
      | nil =>
        simp [sizeInsert, sizeChain, hzx]
      | cons w ws =>
        simp only [sizeChain, Bool.and_eq_true, decide_eq_true_eq] at h
        obtain ⟨hzw, htail⟩ := h
        have ht := ih htail
        simp only [sizeInsert] at ht ⊢
        by_cases hw : x.getSize ≤ w.getSize
        · rw [if_pos hw] at ht ⊢
          simp only [sizeChain, Bool.and_eq_true, decide_eq_true_eq] at ht ⊢
          exact ⟨hzx, ht⟩
        · rw [if_neg hw] at ht ⊢
          simp only [sizeChain, Bool.and_eq_true, decide_eq_true_eq] at ht ⊢
          exact ⟨hzw, ht⟩

theorem sizeChain_sizeSort (l : List ETree) : sizeChain (sizeSort l) = true := by
  induction l with
  | nil => rfl
  | cons x xs ih => exact sizeChain_sizeInsert x (sizeSort xs) ih

theorem sizeSort_of_chain (l : List ETree) (h : sizeChain l = true) :
    sizeSort l = l := by
  induction l with
  | nil => rfl
  | cons x xs ih =>
    cases xs with
    | nil => rfl
    | cons y ys =>
      simp only [sizeChain, Bool.and_eq_true, decide_eq_true_eq] at h
      obtain ⟨hxy, htail⟩ := h
      simp only [sizeSort] at ih ⊢
      rw [ih htail]
      simp [sizeInsert, hxy]

theorem absorb_mem_props (o : Oper) (l : List ETree)
    (hcanon : ∀ t ∈ l, canon t = true) :
    ∀ x ∈ absorb o l, canon x = true ∧ notSameOp o x = true := by
  induction l with
  | nil => simp [absorb]
  | cons t rest ih =>
    have hrest : ∀ t ∈ rest, canon t = true :=
      fun t₂ ht₂ => hcanon t₂ (List.mem_cons_of_mem _ ht₂)
    cases t with
    | node o₂ cs =>
      simp only [absorb]
      by_cases ho : o₂ = o
      · rw [if_pos ho]
        intro x hx
        rcases List.mem_append.mp hx with hx₁ | hx₂
        · have hc := hcanon (.node o₂ cs) (List.mem_cons_self _ _)
          subst ho
          simp only [canon, Bool.and_eq_true] at hc
          obtain ⟨⟨hlist, hall⟩, _⟩ := hc
          refine ⟨(canonList_iff cs).mp hlist x hx₁, ?_⟩
          rw [List.all_eq_true] at hall
          exact hall x hx₁
        · exact ih hrest x hx₂
      · rw [if_neg ho]
        intro x hx
        rcases List.mem_cons.mp hx with rfl | hx₂
        · refine ⟨hcanon _ (List.mem_cons_self _ _), ?_⟩
          simp [notSameOp, ho]
        · exact ih hrest x hx₂
    | leaf v =>
      simp only [absorb]
      intro x hx
      rcases List.mem_cons.mp hx with rfl | hx₂
      · exact ⟨rfl, rfl⟩
      · exact ih hrest x hx₂

theorem absorb_id (o : Oper) (l : List ETree)
    (h : ∀ t ∈ l, notSameOp o t = true) : absorb o l = l := by
  induction l with
  | nil => rfl
  | cons t rest ih =>
    have hrest := fun t₂ ht₂ => h t₂ (List.mem_cons_of_mem _ ht₂)
    cases t with
    | node o₂ cs =>
      have ht := h (.node o₂ cs) (List.mem_cons_self _ _)
      simp only [notSameOp, bne_iff_ne, ne_eq] at ht
      simp only [absorb, if_neg ht]
      rw [ih hrest]
    | leaf v =>
      simp only [absorb]
      rw [ih hrest]

theorem canon_simplify (t : ETree) : canon t.simplify = true := by
  induction t using ETree.ind with
  | hleaf v => rfl
  | hnode o cs ih =>
    show canon (.node o (sizeSort (absorb o (simplifyList cs)))) = true
    have hmem : ∀ x ∈ simplifyList cs, canon x = true := by
      intro x hx
      rw [simplifyList_eq_map] at hx
      obtain ⟨c, hc, rfl⟩ := List.mem_map.mp hx
      exact ih c hc
    have habs := absorb_mem_props o (simplifyList cs) hmem
    simp only [canon, Bool.and_eq_true]
    refine ⟨⟨?_, ?_⟩, sizeChain_sizeSort _⟩
    · rw [canonList_iff]
      intro c hc
      exact (habs c ((mem_sizeSort c _).mp hc)).1
    · rw [List.all_eq_true]
      intro c hc
      exact (habs c ((mem_sizeSort c _).mp hc)).2

theorem simplify_of_canon (t : ETree) (h : canon t = true) : t.simplify = t := by
  induction t using ETree.ind with
  | hleaf v => rfl
  | hnode o cs ih =>
    simp only [canon, Bool.and_eq_true] at h
    obtain ⟨⟨hlist, hall⟩, hchain⟩ := h
    show ETree.node o (sizeSort (absorb o (simplifyList cs))) = ETree.node o cs
    have h1 : simplifyList cs = cs := by
      rw [simplifyList_eq_map]
      have : ∀ c ∈ cs, c.simplify = c := by
        intro c hc
        exact ih c hc ((canonList_iff cs).mp hlist c hc)
      calc cs.map ETree.simplify = cs.map id := List.map_congr_left this
      _ = cs := List.map_id cs
    rw [h1, absorb_id o cs (by rw [List.all_eq_true] at hall; exact hall),
      sizeSort_of_chain cs hchain]

/-- C9.  simplify is idempotent, and one application establishes
canonical form: at every node no operand carries the operator of its
parent, and the operands are ascending by subtree node count (canon
checks exactly these two conditions recursively). -/
theorem simplify_idempotent_canonical (t : ETree) :
    t.simplify.simplify = t.simplify ∧ canon t.simplify = true :=
  ⟨simplify_of_canon _ (canon_simplify t), canon_simplify t⟩

/-! ## CLI binding theorem -/

/-- C5.  The make-resistance subcommand of util.py passes a topology
keyword argument, but make_resistance accepts no parameter of that name
(and has no keyword catch-all), so every invocation of the subcommand
raises TypeError before any search runs; no topology restriction exists
anywhere in the implementation. -/
theorem make_resistance_topology_missing :
    "topology" ∈ util_make_resistance_kwargs ∧ "topology" ∉ make_resistance_params := by
  decide

/-- Membership in the insort result. -/
theorem mem_insort (a : List ℚ) (x y : ℚ) : y ∈ insort a x ↔ y = x ∨ y ∈ a := by
  unfold insort
  constructor
  · intro hy
    rcases List.mem_append.mp hy with h1 | h2
    · exact Or.inr (List.mem_of_mem_take h1)
    · rcases List.mem_cons.mp h2 with h3 | h4
      · exact Or.inl h3
      · exact Or.inr (List.mem_of_mem_drop h4)
  · intro hy
    rcases hy with rfl | hy
    · exact List.mem_append.mpr (Or.inr (List.mem_cons_self _ _))
    · have := (List.take_append_drop (bisect a x) a).symm ▸ hy
      rcases List.mem_append.mp this with h1 | h2
      · exact List.mem_append.mpr (Or.inl h1)
      · exact List.mem_append.mpr (Or.inr (List.mem_cons_of_mem _ h2))

/-! ## Synthesis engine theorems -/

theorem nvals_cons_op (o : Oper) (e : RPExpr) : nvals (.op o :: e) = nvals e := by
  simp [nvals, List.countP_cons]

theorem nvals_cons_val (v : ℚ) (e : RPExpr) : nvals (.val v :: e) = nvals e + 1 := by
  simp [nvals, List.countP_cons]

theorem Stored.length_eq (e : RPExpr) (h : Stored e) :
    1 ≤ nvals e ∧ e.length = 2 * nvals e - 1 := by
  induction h with
  | single v => simp [nvals]
  | comp o v e _ ih =>
    rw [nvals_cons_op, nvals_cons_val]
    simp only [List.length_cons]
    omega

theorem Stored.comps_index (e : RPExpr) (h : Stored e) :
    e.length / 2 + 1 = nvals e := by
  obtain ⟨h1, h2⟩ := h.length_eq
  omega

theorem dictFind_mono (d : PyDict) (k₂ : ℚ) (v₂ : RPExpr) (k : ℚ) (e : RPExpr)
    (hfree : dictFind d k₂ = none) (h : dictFind d k = some e) :
    dictFind (dictSet d k₂ v₂) k = some e := by
  have hne : k ≠ k₂ := by
    intro he
    rw [he, hfree] at h
    exact Option.noConfusion h
  rw [dictFind_dictSet_other d k₂ k v₂ hne]
  exact h

theorem getD_keyss_set_ne (l : List (List ℚ)) (m i : ℕ) (a : List ℚ) (h : m ≠ i) :
    (l.set m a).getD i [] = l.getD i [] := by
  rw [List.getD_eq_getElem?_getD, List.getD_eq_getElem?_getD, List.getElem?_set_ne h]

theorem getD_keyss_set_self (l : List (List ℚ)) (m : ℕ) (a : List ℚ)
    (h : m < l.length) : (l.set m a).getD m [] = a := by
  rw [List.getD_eq_getElem?_getD, List.getElem?_set_self h]
  rfl

theorem getD_of_get? (l : List (List ℚ)) (i : ℕ) (ks : List ℚ)
    (h : l.get? i = some ks) : l.getD i [] = ks := by
  rw [List.getD_eq_getElem?_getD, ← List.get?_eq_getElem?, h]
  rfl

theorem getD_append_empty (l : List (List ℚ)) (i : ℕ) (v : ℚ)
    (h : v ∈ (l ++ [[]]).getD i []) : v ∈ l.getD i [] := by
  rw [List.getD_eq_getElem?_getD, List.getElem?_append] at h
  by_cases hi : i < l.length
  · rw [if_pos hi] at h
    rw [List.getD_eq_getElem?_getD]
    exact h
  · rw [if_neg hi] at h
    exfalso
    rcases Nat.lt_or_ge (i - l.length) 1 with h1 | h1
    · interval_cases hd : (i - l.length)
      · simp at h
    · have : ([([] : List ℚ)] : List (List ℚ))[i - l.length]? = none := by
        apply List.getElem?_eq_none
        simpa using h1
      rw [this] at h
      simp at h

/-- Core fact about the save-if-truly-new block at a fixed level index:
the invariant survives, the level structure keeps its length, existing
bindings survive unchanged, and the ghost trace grows by the attempt. -/
theorem saveNewAt_ok (st : MRState) (idx : ℕ) (nv : ℚ) (ne₁ : RPExpr) (st₂ : MRState)
    (hinv : StoreInv st) (hstored : Stored ne₁) (hn : nvals ne₁ = idx + 1)
    (h : saveNewAt st idx nv ne₁ = .ok st₂) :
    StoreInv st₂ ∧ st₂.keyss.length = st.keyss.length ∧
      (∀ k e, dictFind st.results k = some e → dictFind st₂.results k = some e) := by
  rw [saveNewAt] at h
  by_cases hpres : (dictFind st.results nv).isSome
  · rw [if_pos hpres] at h
    cases h
    exact ⟨fun i v hv => hinv i v hv, rfl, fun k e he => he⟩
  · rw [if_neg hpres] at h
    cases hget : st.keyss.get? idx with
    | none =>
      rw [hget] at h
      exact absurd h (by simp)
    | some keys =>
      rw [hget] at h
      simp only [bind_ok] at h
      cases h
      have hfree : dictFind st.results nv = none := by
        cases hd : dictFind st.results nv with
        | none => rfl
        | some e => rw [hd] at hpres; simp at hpres
      have hidxlt : idx < st.keyss.length := by
        obtain ⟨hlt, _⟩ := List.get?_eq_some.mp hget
        exact hlt
      refine ⟨?_, by simp, ?_⟩
      · intro i v hv
        by_cases hi : idx = i
        · subst hi
          rw [getD_keyss_set_self _ _ _ hidxlt] at hv
          rcases (mem_insort keys nv v).mp hv with rfl | hvk
          · exact ⟨ne₁, dictFind_dictSet_self _ _ _, hstored, hn⟩
          · have := hinv idx v (by rw [getD_of_get? _ _ _ hget]; exact hvk)
            obtain ⟨e, he, hs, hne⟩ := this
            exact ⟨e, dictFind_mono _ _ _ _ _ hfree he, hs, hne⟩
        · rw [getD_keyss_set_ne _ _ _ _ hi] at hv
          obtain ⟨e, he, hs, hne⟩ := hinv i v hv
          exact ⟨e, dictFind_mono _ _ _ _ _ hfree he, hs, hne⟩
      · intro k e he
        exact dictFind_mono _ _ _ _ _ hfree he

theorem bestUpdate_none (target : ℚ) (e : RPExpr) (v : ℚ) :
    bestUpdate target none e v = some (e, v) := rfl

theorem bestUpdate_some (target : ℚ) (be : RPExpr) (bv : ℚ) (e : RPExpr) (v : ℚ) :
    bestUpdate target (some (be, bv)) e v =
      if |target - v| < |target - bv| then some (e, v) else some (be, bv) := rfl

theorem bestUpdate_ok (n : ℕ) (target : ℚ) (b : Best) (e : RPExpr) (v : ℚ)
    (hb : BestOK n b) (hs : Stored e) (hnv : nvals e ≤ n) :
    BestOK n (bestUpdate target b e v) := by
  intro e₂ v₂ h
  cases b with
  | none =>
    rw [bestUpdate_none] at h
    cases h
    exact ⟨hs, hnv⟩
  | some p =>
    obtain ⟨be, bv⟩ := p
    rw [bestUpdate_some] at h
    by_cases hlt : |target - v| < |target - bv|
    · rw [if_pos hlt] at h
      cases h
      exact ⟨hs, hnv⟩
    · rw [if_neg hlt] at h
      exact hb e₂ v₂ h

theorem probeTry_ok (results : PyDict) (target : ℚ) (keys : List ℚ) (i : ℤ)
    (b b₂ : Best) (n : ℕ)
    (hlev : ∀ v ∈ keys, ∃ e, dictFind results v = some e ∧ Stored e ∧ nvals e ≤ n)
    (hb : BestOK n b) (h : probeTry results target keys i b = .ok b₂) : BestOK n b₂ := by
  unfold probeTry at h
  split at h
  · cases h
    exact hb
  · rename_i v₃ heq
    split at h
    · exact absurd h (by simp)
    · rename_i e₃ heq₂
      cases h
      have hmem := pyGet_mem keys i v₃ heq
      obtain ⟨e, he, hs, hnv⟩ := hlev v₃ hmem
      rw [he] at heq₂
      cases heq₂
      exact bestUpdate_ok n target b e₃ v₃ hb hs hnv

theorem probeLevel_ok (results : PyDict) (target : ℚ) (keys : List ℚ)
    (b b₂ : Best) (n : ℕ)
    (hlev : ∀ v ∈ keys, ∃ e, dictFind results v = some e ∧ Stored e ∧ nvals e ≤ n)
    (hb : BestOK n b) (h : probeLevel results target b keys = .ok b₂) : BestOK n b₂ := by
  simp only [probeLevel] at h
  cases h1 : probeTry results target keys (bisect keys target : ℤ) b with
  | error err =>
    rw [h1] at h
    exact absurd h (by simp [bind_err])
  | ok b₁ =>
    rw [h1, bind_ok] at h
    exact probeTry_ok results target keys _ b₁ b₂ n hlev
      (probeTry_ok results target keys _ b b₁ n hlev hb h1) h

theorem probeAll_ok (results : PyDict) (target : ℚ) (n : ℕ) :
    ∀ (levels : List (List ℚ)) (b b₂ : Best),
      (∀ keys ∈ levels, ∀ v ∈ keys,
        ∃ e, dictFind results v = some e ∧ Stored e ∧ nvals e ≤ n) →
      BestOK n b → probeAll results target b levels = .ok b₂ → BestOK n b₂ := by
  intro levels
  induction levels with
  | nil =>
    intro b b₂ _ hb h
    rw [probeAll, List.foldlM_nil] at h
    cases h
    exact hb
  | cons keys rest ih =>
    intro b b₂ hlev hb h
    rw [probeAll, List.foldlM_cons] at h
    cases h1 : probeLevel results target b keys with
    | error err =>
      rw [h1] at h
      exact absurd h (by simp [bind_err])
    | ok b₁ =>
      rw [h1, bind_ok] at h
      exact ih b₁ b₂ (fun ks hks => hlev ks (List.mem_cons_of_mem _ hks))
        (probeLevel_ok results target keys b b₁ n (hlev keys (List.mem_cons_self _ _)) hb h1)
        h

theorem levels_ok (st : MRState) (n : ℕ) (hinv : StoreInv st) :
    ∀ keys ∈ st.keyss.take n, ∀ v ∈ keys,
      ∃ e, dictFind st.results v = some e ∧ Stored e ∧ nvals e ≤ n := by
  intro keys hk v hv
  obtain ⟨i, hi, hik⟩ := List.mem_iff_getElem.mp hk
  have hin : i < n := by
    have := hi
    simp only [List.length_take] at this
    omega
  have hilen : i < st.keyss.length := by
    have := hi
    simp only [List.length_take] at this
    omega
  have hgd : st.keyss.getD i [] = keys := by
    rw [List.getD_eq_getElem?_getD, List.getElem?_eq_getElem hilen]
    simp only [Option.getD_some]
    rw [← hik]
    exact (List.getElem_take _).symm
  obtain ⟨e, he, hs, hnv⟩ := hinv i v (by rw [hgd]; exact hv)
  exact ⟨e, he, hs, by omega⟩

theorem saveNew_eq_saveNewAt (st : MRState) (nv : ℚ) (ne₁ : RPExpr) :
    saveNew st nv ne₁ = saveNewAt st (ne₁.length / 2 + 1 - 1) nv ne₁ := rfl

theorem saveNew_ok (st : MRState) (nv : ℚ) (ne₁ : RPExpr) (st₂ : MRState)
    (hinv : StoreInv st) (hstored : Stored ne₁)
    (h : saveNew st nv ne₁ = .ok st₂) :
    StoreInv st₂ ∧ st₂.keyss.length = st.keyss.length ∧
      (∀ k e, dictFind st.results k = some e → dictFind st₂.results k = some e) := by
  rw [saveNew_eq_saveNewAt] at h
  refine saveNewAt_ok st _ nv ne₁ st₂ hinv hstored ?_ h
  have := hstored.comps_index
  obtain ⟨h1, _⟩ := hstored.length_eq
  omega


/-- The extension loop preserves the store invariant and returns a best
candidate within the incremented budget, given that the recursive call it
is handed does so within the decremented one. -/
theorem mrExtGo_ok (target : ℚ) (recurse : ℚ → MRState → Except PyErr (Best × MRState))
    (n : ℕ)
    (hrec : ∀ t st st₂ rb, StoreInv st → recurse t st = .ok (rb, st₂) →
      BestOK n rb ∧ StoreInv st₂ ∧ st₂.keyss.length = st.keyss.length) :
    ∀ (vs : List ℚ) (b : Best) (st : MRState) (b₂ : Best) (st₂ : MRState),
      StoreInv st → BestOK (n + 1) b →
      mrExtGo target recurse vs b st = .ok (b₂, st₂) →
      BestOK (n + 1) b₂ ∧ StoreInv st₂ ∧ st₂.keyss.length = st.keyss.length := by
  intro vs
  induction vs with
  | nil =>
    intro b st b₂ st₂ hinv hb h
    simp only [mrExtGo] at h
    cases h
    exact ⟨hb, hinv, rfl⟩
  | cons v rest ih =>
    intro b st b₂ st₂ hinv hb h
    simp only [mrExtGo] at h
    by_cases hvt : v < target
    · rw [if_pos hvt] at h
      cases hr : recurse (target - v) st with
      | error err =>
        rw [hr] at h
        exact absurd h (by simp [bind_err])
      | ok p =>
        rw [hr, bind_ok] at h
        obtain ⟨rb, st₁⟩ := p
        obtain ⟨hrb, hinv₁, hlen₁⟩ := hrec (target - v) st st₁ rb hinv hr
        cases rb with
        | none =>
          exact absurd h (by simp)
        | some q =>
          obtain ⟨re, rv⟩ := q
          obtain ⟨hsre, hnre⟩ := hrb re rv rfl
          replace h : (saveNew st₁ (rv + v) (.op .add :: .val v :: re) >>=
              fun st₃ => mrExtGo target recurse rest
                (bestUpdate target b (.op .add :: .val v :: re) (rv + v)) st₃)
              = .ok (b₂, st₂) := h
          cases hs : saveNew st₁ (rv + v) (.op .add :: .val v :: re) with
          | error err =>
            rw [hs] at h
            exact absurd h (by simp [bind_err])
          | ok st₃ =>
            rw [hs, bind_ok] at h
            obtain ⟨hinv₃, hlen₃, _⟩ := saveNew_ok st₁ _ _ st₃ hinv₁
              (Stored.comp _ _ _ hsre) hs
            have hbu : BestOK (n + 1) (bestUpdate target b
                (.op .add :: .val v :: re) (rv + v)) := by
              refine bestUpdate_ok _ _ _ _ _ hb (Stored.comp _ _ _ hsre) ?_
              rw [nvals_cons_op, nvals_cons_val]
              omega
            obtain ⟨hb₂, hinv₂, hlen₂⟩ := ih _ st₃ b₂ st₂ hinv₃ hbu h
            exact ⟨hb₂, hinv₂, by omega⟩
    · rw [if_neg hvt] at h
      by_cases hveq : v = target
      · rw [if_pos hveq] at h
        exact absurd h (by simp)
      · rw [if_neg hveq] at h
        cases hr : recurse (v * target / (v - target)) st with
        | error err =>
          rw [hr] at h
          exact absurd h (by simp [bind_err])
        | ok p =>
          rw [hr, bind_ok] at h
          obtain ⟨rb, st₁⟩ := p
          obtain ⟨hrb, hinv₁, hlen₁⟩ := hrec _ st st₁ rb hinv hr
          cases rb with
          | none =>
            exact absurd h (by simp)
          | some q =>
            obtain ⟨re, rv⟩ := q
            obtain ⟨hsre, hnre⟩ := hrb re rv rfl
            replace h : (if rv + v = 0 then (.error .zeroDivisionError : Except PyErr (Best × MRState))
                else saveNew st₁ (rv * v / (rv + v)) (.op .par :: .val v :: re) >>=
                  fun st₃ => mrExtGo target recurse rest
                    (bestUpdate target b (.op .par :: .val v :: re) (rv * v / (rv + v))) st₃)
                = .ok (b₂, st₂) := h
            by_cases hz : rv + v = 0
            · rw [if_pos hz] at h
              exact absurd h (by simp)
            · rw [if_neg hz] at h
              cases hs : saveNew st₁ (rv * v / (rv + v)) (.op .par :: .val v :: re) with
              | error err =>
                rw [hs] at h
                exact absurd h (by simp [bind_err])
              | ok st₃ =>
                rw [hs, bind_ok] at h
                obtain ⟨hinv₃, hlen₃, _⟩ := saveNew_ok st₁ _ _ st₃ hinv₁
                  (Stored.comp _ _ _ hsre) hs
                have hbu : BestOK (n + 1) (bestUpdate target b
                    (.op .par :: .val v :: re) (rv * v / (rv + v))) := by
                  refine bestUpdate_ok _ _ _ _ _ hb (Stored.comp _ _ _ hsre) ?_
                  rw [nvals_cons_op, nvals_cons_val]
                  omega
                obtain ⟨hb₂, hinv₂, hlen₂⟩ := ih _ st₃ b₂ st₂ hinv₃ hbu h
                exact ⟨hb₂, hinv₂, by omega⟩

/-- Master lemma for _make_resistance_helper: under the store invariant a
successful call returns a stored best within the budget and preserves the
invariant and the level count. -/
theorem mrHelper_ok (avail : List ℚ) (tol : ℚ) :
    ∀ (n : ℕ) (target : ℚ) (fully : ℕ) (st : MRState) (b₂ : Best) (st₂ : MRState),
      StoreInv st → mrHelper avail tol n target fully st = .ok (b₂, st₂) →
      BestOK n b₂ ∧ StoreInv st₂ ∧ st₂.keyss.length = st.keyss.length := by
  intro n
  induction n with
  | zero =>
    intro target fully st b₂ st₂ _ h
    exact absurd h (by simp [mrHelper])
  | succ n ih =>
    intro target fully st b₂ st₂ hinv h
    rw [mrHelper] at h
    by_cases hcond : n = 0 ∨ n + 1 ≤ fully
    · rw [if_pos hcond] at h
      cases htake : st.keyss.take (n + 1) with
      | nil =>
        rw [htake] at h
        exact mrExtGo_ok target _ n
          (fun t st' st₂' rb hi hr => ih t fully st' rb st₂' hi hr)
          avail none st b₂ st₂ hinv (fun e v hev => Option.noConfusion hev) h
      | cons l₀ ls =>
        rw [htake] at h
        replace h : (probeLevel st.results target none l₀ >>=
            fun b => (.ok (b, st) : Except PyErr (Best × MRState))) = .ok (b₂, st₂) := h
        cases hp : probeLevel st.results target none l₀ with
        | error err =>
          rw [hp] at h
          exact absurd h (by simp [bind_err])
        | ok b₁ =>
          rw [hp, bind_ok] at h
          cases h
          refine ⟨?_, hinv, rfl⟩
          refine probeLevel_ok st.results target l₀ none b₂ (n + 1) ?_
            (fun e v hev => Option.noConfusion hev) hp
          intro v hv
          exact levels_ok st (n + 1) hinv l₀ (by rw [htake]; exact List.mem_cons_self _ _)
            v hv
    · rw [if_neg hcond] at h
      cases hp : probeAll st.results target none (st.keyss.take (n + 1)) with
      | error err =>
        rw [hp] at h
        exact absurd h (by simp [bind_err])
      | ok b₁ =>
        rw [hp, bind_ok] at h
        have hb₁ : BestOK (n + 1) b₁ :=
          probeAll_ok st.results target (n + 1) (st.keyss.take (n + 1)) none b₁
            (levels_ok st (n + 1) hinv) (fun e v hev => Option.noConfusion hev) hp
        exact mrExtGo_ok target _ n
          (fun t st' st₂' rb hi hr => ih t fully st' rb st₂' hi hr)
          avail b₁ st b₂ st₂ hinv hb₁ h

/-- Appending a fresh empty level keeps the store invariant. -/
theorem StoreInv_append_empty (st : MRState) (hinv : StoreInv st) :
    StoreInv { st with keyss := st.keyss ++ [[]] } := by
  intro i v hv
  exact hinv i v (getD_append_empty st.keyss i v hv)

/-- The inner full-search loop over the previous level's keys preserves the
store invariant, the level count, and existing dictionary bindings, as long
as every iterated key is bound to a stored expression of idx components. -/
theorem fullSearchOlds_ok (idx : ℕ) (v : ℚ) :
    ∀ (olds : List ℚ) (st st₂ : MRState), StoreInv st →
      (∀ old ∈ olds, ∃ e, dictFind st.results old = some e ∧ Stored e ∧ nvals e = idx) →
      fullSearchOlds idx v olds st = .ok st₂ →
      StoreInv st₂ ∧ st₂.keyss.length = st.keyss.length ∧
        (∀ k e, dictFind st.results k = some e → dictFind st₂.results k = some e) := by
  intro olds
  induction olds with
  | nil =>
    intro st st₂ hinv _ h
    simp only [fullSearchOlds] at h
    cases h
    exact ⟨hinv, rfl, fun k e he => he⟩
  | cons old rest ih =>
    intro st st₂ hinv holds h
    obtain ⟨e, hfind, hse, hne⟩ := holds old (List.mem_cons_self _ _)
    simp only [fullSearchOlds] at h
    rw [hfind] at h
    replace h : (saveNewAt st idx (v + old) (.op .add :: .val v :: e) >>= fun st₁ =>
        if v + old = 0 then (.error .zeroDivisionError : Except PyErr MRState)
        else saveNewAt st₁ idx ((v * old) / (v + old)) (.op .par :: .val v :: e) >>=
          fun st₃ => fullSearchOlds idx v rest st₃) = .ok st₂ := h
    cases hs₁ : saveNewAt st idx (v + old) (.op .add :: .val v :: e) with
    | error err =>
      rw [hs₁] at h
      exact absurd h (by simp [bind_err])
    | ok st₁ =>
      rw [hs₁, bind_ok] at h
      obtain ⟨hinv₁, hlen₁, hmono₁⟩ := saveNewAt_ok st idx _ _ st₁ hinv
        (Stored.comp _ _ _ hse) (by rw [nvals_cons_op, nvals_cons_val, hne]) hs₁
      by_cases hz : v + old = 0
      · rw [if_pos hz] at h
        exact absurd h (by simp)
      · rw [if_neg hz] at h
        cases hs₂ : saveNewAt st₁ idx ((v * old) / (v + old)) (.op .par :: .val v :: e) with
        | error err =>
          rw [hs₂] at h
          exact absurd h (by simp [bind_err])
        | ok st₃ =>
          rw [hs₂, bind_ok] at h
          obtain ⟨hinv₃, hlen₃, hmono₃⟩ := saveNewAt_ok st₁ idx _ _ st₃ hinv₁
            (Stored.comp _ _ _ hse) (by rw [nvals_cons_op, nvals_cons_val, hne]) hs₂
          obtain ⟨hinv₂, hlen₂, hmono₂⟩ := ih st₃ st₂ hinv₃
            (fun old' hmem => by
              obtain ⟨e', hfind', hse', hne'⟩ := holds old' (List.mem_cons_of_mem _ hmem)
              exact ⟨e', hmono₃ _ _ (hmono₁ _ _ hfind'), hse', hne'⟩) h
          exact ⟨hinv₂, by omega, fun k e₂ he₂ => hmono₂ _ _ (hmono₃ _ _ (hmono₁ _ _ he₂))⟩

/-- The outer full-search loop over the available values preserves the store
invariant, the level count, and existing bindings. -/
theorem fullSearchVals_ok (idx : ℕ) (olds : List ℚ) :
    ∀ (vs : List ℚ) (st st₂ : MRState), StoreInv st →
      (∀ old ∈ olds, ∃ e, dictFind st.results old = some e ∧ Stored e ∧ nvals e = idx) →
      fullSearchVals idx olds vs st = .ok st₂ →
      StoreInv st₂ ∧ st₂.keyss.length = st.keyss.length ∧
        (∀ k e, dictFind st.results k = some e → dictFind st₂.results k = some e) := by
  intro vs
  induction vs with
  | nil =>
    intro st st₂ hinv _ h
    simp only [fullSearchVals] at h
    cases h
    exact ⟨hinv, rfl, fun k e he => he⟩
  | cons v rest ih =>
    intro st st₂ hinv holds h
    simp only [fullSearchVals] at h
    cases h₁ : fullSearchOlds idx v olds st with
    | error err =>
      rw [h₁] at h
      exact absurd h (by simp [bind_err])
    | ok st₁ =>
      rw [h₁, bind_ok] at h
      obtain ⟨hinv₁, hlen₁, hmono₁⟩ := fullSearchOlds_ok idx v olds st st₁ hinv holds h₁
      obtain ⟨hinv₂, hlen₂, hmono₂⟩ := ih st₁ st₂ hinv₁
        (fun old hm => by
          obtain ⟨e, hf, hs, hn⟩ := holds old hm
          exact ⟨e, hmono₁ _ _ hf, hs, hn⟩) h
      exact ⟨hinv₂, by omega, fun k e he => hmono₂ _ _ (hmono₁ _ _ he)⟩

/-- The full-search stage of a round preserves the store invariant: the
iterated keys come from level nfs.toNat - 2 of the state itself, so the
invariant supplies the component counts the insertions need. -/
theorem mrFS_ok (avail : List ℚ) (nfsearch nfslag : ℤ) (num : ℕ) (st st₂ : MRState)
    (hinv : StoreInv st) (h : mrFS avail nfsearch nfslag num st = .ok st₂) :
    StoreInv st₂ := by
  rw [mrFS] at h
  by_cases hc : 1 < ((num : ℤ) - nfslag) ∧ ((num : ℤ) - nfslag) ≤ nfsearch
  · rw [if_pos hc] at h
    cases hks : st.keyss.get? (((num : ℤ) - nfslag).toNat - 2) with
    | none =>
      rw [hks] at h
      replace h : (Except.error PyErr.indexError >>= fun olds =>
          fullSearchVals (((num : ℤ) - nfslag).toNat - 1) olds avail st) = .ok st₂ := h
      rw [bind_err] at h
      exact absurd h (by simp)
    | some ks =>
      rw [hks] at h
      replace h : (Except.ok ks >>= fun olds =>
          fullSearchVals (((num : ℤ) - nfslag).toNat - 1) olds avail st) = .ok st₂ := h
      rw [bind_ok] at h
      refine (fullSearchVals_ok _ ks avail st st₂ hinv ?_ h).1
      intro old hm
      have hgd : st.keyss.getD (((num : ℤ) - nfslag).toNat - 2) [] = ks :=
        getD_of_get? _ _ _ hks
      obtain ⟨e, hf, hs, hn⟩ := hinv (((num : ℤ) - nfslag).toNat - 2) old (by rw [hgd]; exact hm)
      refine ⟨e, hf, hs, ?_⟩
      rw [hn]
      omega
  · rw [if_neg hc] at h
    cases h
    exact hinv

/-- One round is definitionally the full-search stage on the widened state
followed by the helper. -/
theorem mrRound_eq (avail : List ℚ) (target tolerance : ℚ) (nfsearch nfslag : ℤ)
    (num : ℕ) (st : MRState) :
    mrRound avail target tolerance nfsearch nfslag num st =
      mrFS avail nfsearch nfslag num
          (if 1 < num then { st with keyss := st.keyss ++ [[]] } else st) >>=
        fun st' => mrHelper avail tolerance num target
          (max (min ((num : ℤ) - nfslag) nfsearch) 1).toNat st' := rfl

/-- One round of make_resistance preserves the store invariant and returns a
best candidate within the round's component budget. -/
theorem mrRound_ok (avail : List ℚ) (target tolerance : ℚ) (nfsearch nfslag : ℤ)
    (num : ℕ) (st : MRState) (b : Best) (st₂ : MRState)
    (hinv : StoreInv st)
    (h : mrRound avail target tolerance nfsearch nfslag num st = .ok (b, st₂)) :
    BestOK num b ∧ StoreInv st₂ := by
  rw [mrRound_eq] at h
  cases hfs : mrFS avail nfsearch nfslag num
      (if 1 < num then { st with keyss := st.keyss ++ [[]] } else st) with
  | error err =>
    rw [hfs] at h
    exact absurd h (by simp [bind_err])
  | ok st₁ =>
    rw [hfs, bind_ok] at h
    have hinv' : StoreInv (if 1 < num then { st with keyss := st.keyss ++ [[]] } else st) := by
      by_cases h1 : 1 < num
      · rw [if_pos h1]
        exact StoreInv_append_empty st hinv
      · rw [if_neg h1]
        exact hinv
    have hinv₁ := mrFS_ok avail nfsearch nfslag num _ st₁ hinv' hfs
    obtain ⟨hb, hinv₂, _⟩ := mrHelper_ok avail tolerance num target _ st₁ b st₂ hinv₁ h
    exact ⟨hb, hinv₂⟩

/-- Master lemma for the top loop: a successful run returns a stored
expression whose component count stays within the round that produced it,
that round is within the bound, and a run that broke before the final round
met the tolerance test. -/
theorem mrLoop_ok (avail : List ℚ) (target tolerance : ℚ) (nfsearch nfslag : ℤ)
    (maxN : ℕ) :
    ∀ (nums : List ℕ) (st : MRState) (e : RPExpr) (v : ℚ) (r : ℕ),
      StoreInv st → (∀ m ∈ nums, m ≤ maxN) → nums.getLast? = some maxN →
      mrLoop avail target tolerance nfsearch nfslag nums st = .ok (e, v, r) →
      Stored e ∧ nvals e ≤ r ∧ r ≤ maxN ∧
        (r < maxN → |target - v| ≤ tolerance * target) := by
  intro nums
  induction nums with
  | nil =>
    intro st e v r _ _ hlast _
    exact absurd hlast (by simp)
  | cons num rest ih =>
    intro st e v r hinv hmax hlast h
    simp only [mrLoop] at h
    cases hr : mrRound avail target tolerance nfsearch nfslag num st with
    | error err =>
      rw [hr] at h
      exact absurd h (by simp [bind_err])
    | ok p =>
      rw [hr, bind_ok] at h
      obtain ⟨b, st₁⟩ := p
      obtain ⟨hb, hinv₁⟩ := mrRound_ok avail target tolerance nfsearch nfslag num st b st₁
        hinv hr
      cases b with
      | none =>
        replace h : (Except.error PyErr.typeError : Except PyErr (RPExpr × ℚ × ℕ))
            = .ok (e, v, r) := h
        exact absurd h (by simp)
      | some q =>
        obtain ⟨e', v'⟩ := q
        obtain ⟨hse, hnv⟩ := hb e' v' rfl
        cases rest with
        | nil =>
          replace h : (if |target - v'| ≤ tolerance * target then
              (.ok (e', v', num) : Except PyErr (RPExpr × ℚ × ℕ))
              else .ok (e', v', num)) = .ok (e, v, r) := h
          have hr2 : num = maxN := by
            have := hlast
            simp only [List.getLast?_singleton, Option.some.injEq] at this
            exact this
          by_cases htol : |target - v'| ≤ tolerance * target
          · rw [if_pos htol] at h
            cases h
            exact ⟨hse, hnv, by omega, fun _ => htol⟩
          · rw [if_neg htol] at h
            cases h
            exact ⟨hse, hnv, by omega, fun hlt => absurd hr2 (by omega)⟩
        | cons n₂ rest₂ =>
          replace h : (if |target - v'| ≤ tolerance * target then
              (.ok (e', v', num) : Except PyErr (RPExpr × ℚ × ℕ))
              else mrLoop avail target tolerance nfsearch nfslag (n₂ :: rest₂) st₁)
              = .ok (e, v, r) := h
          by_cases htol : |target - v'| ≤ tolerance * target
          · rw [if_pos htol] at h
            cases h
            exact ⟨hse, hnv, hmax num (List.mem_cons_self _ _), fun _ => htol⟩
          · rw [if_neg htol] at h
            refine ih st₁ e v r hinv₁
              (fun m hm => hmax m (List.mem_cons_of_mem _ hm)) ?_ h
            rwa [List.getLast?_cons_cons] at hlast

/-- A binding found after d[k] = v is the new one or an old one. -/
theorem mem_dictSet (k : ℚ) (v : RPExpr) :
    ∀ (d : PyDict), ∀ p ∈ dictSet d k v, p = (k, v) ∨ p ∈ d := by
  intro d
  induction d with
  | nil =>
    intro p hp
    simp only [dictSet, List.mem_singleton] at hp
    exact Or.inl hp
  | cons q rest ih =>
    intro p hp
    simp only [dictSet] at hp
    by_cases hq : q.1 = k
    · rw [if_pos hq] at hp
      rcases List.mem_cons.mp hp with h | h
      · exact Or.inl h
      · exact Or.inr (List.mem_cons_of_mem _ h)
    · rw [if_neg hq] at hp
      rcases List.mem_cons.mp hp with h | h
      · exact Or.inr (h ▸ List.mem_cons_self _ _)
      · rcases ih p h with h2 | h2
        · exact Or.inl h2
        · exact Or.inr (List.mem_cons_of_mem _ h2)

/-- Every binding the seeding writes maps a value to its one-component
expression. -/
theorem seedResults_bindings (avail_vals : List ℚ) :
    ∀ p ∈ seedResults avail_vals, p.2 = [PElem.val p.1] := by
  have hgen : ∀ (l : List ℚ) (d : PyDict), (∀ p ∈ d, p.2 = [PElem.val p.1]) →
      ∀ p ∈ l.foldl (fun d v => dictSet d v [.val v]) d, p.2 = [PElem.val p.1] := by
    intro l
    induction l with
    | nil => intro d hd p hp; exact hd p hp
    | cons x rest ih =>
      intro d hd p hp
      refine ih (dictSet d x [.val x]) ?_ p hp
      intro q hq
      rcases mem_dictSet x [.val x] d q hq with h | h
      · rw [h]
      · exact hd q h
  exact hgen avail_vals [] (fun p hp => absurd hp (List.not_mem_nil p))

/-- A successful lookup returns one of the dictionary's bindings. -/
theorem dictFind_mem (k : ℚ) (e : RPExpr) :
    ∀ (d : PyDict), dictFind d k = some e → (k, e) ∈ d := by
  intro d
  induction d with
  | nil => intro h; exact absurd h (by simp [dictFind])
  | cons q rest ih =>
    intro h
    rw [dictFind] at h
    by_cases hq : q.1 = k
    · rw [if_pos hq] at h
      cases h
      have : q = (k, q.2) := by
        rw [← hq]
      rw [this]
      exact List.mem_cons_self _ _
    · rw [if_neg hq] at h
      exact List.mem_cons_of_mem _ (ih h)

/-- Every key of the dictionary has a successful lookup. -/
theorem dictFind_of_key (k : ℚ) :
    ∀ (d : PyDict), k ∈ d.map Prod.fst → ∃ e, dictFind d k = some e := by
  intro d
  induction d with
  | nil => intro h; exact absurd h (by simp)
  | cons q rest ih =>
    intro h
    rw [dictFind]
    by_cases hq : q.1 = k
    · exact ⟨q.2, by rw [if_pos hq]⟩
    · rw [List.map_cons, List.mem_cons] at h
      rcases h with h | h
      · exact absurd h.symm hq
      · obtain ⟨e, he⟩ := ih h
        exact ⟨e, by rw [if_neg hq]; exact he⟩

/-- The initial state of the search satisfies the store invariant. -/
theorem initState_inv (avail_vals : List ℚ) : StoreInv (initState avail_vals) := by
  intro i v hv
  match i with
  | Nat.succ j =>
    simp only [initState, List.getD_cons_succ, List.getD_nil] at hv
    exact absurd hv (List.not_mem_nil v)
  | 0 =>
    simp only [initState, List.getD_cons_zero] at hv
    have hmem : v ∈ (seedResults avail_vals).map Prod.fst :=
      (List.Perm.mem_iff (List.perm_insertionSort _ _)).mp hv
    obtain ⟨e, he⟩ := dictFind_of_key v (seedResults avail_vals) hmem
    have hpe : e = [PElem.val v] :=
      seedResults_bindings avail_vals (v, e) (dictFind_mem v e _ he)
    refine ⟨e, he, ?_, ?_⟩
    · rw [hpe]
      exact Stored.single v
    · rw [hpe, nvals_cons_val]
      rfl

/-- The subtree-size sum distributes over concatenation. -/
theorem sizeList_append (a b : List ETree) :
    sizeList (a ++ b) = sizeList a + sizeList b := by
  induction a with
  | nil => simp [sizeList]
  | cons x xs ih => simp [sizeList, ih]; omega

/-- Inserting by size adds the inserted tree's size to the sum. -/
theorem sizeList_sizeInsert (x : ETree) (l : List ETree) :
    sizeList (sizeInsert x l) = x.getSize + sizeList l := by
  induction l with
  | nil => simp [sizeInsert, sizeList]
  | cons y ys ih =>
    simp only [sizeInsert]
    by_cases h : x.getSize ≤ y.getSize
    · rw [if_pos h]
      simp only [sizeList]
    · rw [if_neg h]
      simp only [sizeList, ih]
      omega

/-- Sorting by size preserves the size sum. -/
theorem sizeList_sizeSort (l : List ETree) : sizeList (sizeSort l) = sizeList l := by
  induction l with
  | nil => rfl
  | cons x xs ih => simp only [sizeSort, sizeList, sizeList_sizeInsert, ih]

/-- Absorbing same-operator children preserves the size sum: a donated
child contributes the sum of its operands, which is its own size. -/
theorem sizeList_absorb (o : Oper) (l : List ETree) :
    sizeList (absorb o l) = sizeList l := by
  induction l with
  | nil => rfl
  | cons t rest ih =>
    cases t with
    | leaf v => simp only [absorb, sizeList, ih]
    | node o₂ cs =>
      simp only [absorb]
      by_cases h : o₂ = o
      · rw [if_pos h]
        simp only [sizeList_append, ih, sizeList, ETree.getSize]
      · rw [if_neg h]
        simp only [sizeList, ih]

/-- simplify preserves the leaf count. -/
theorem getSize_simplify (t : ETree) : t.simplify.getSize = t.getSize := by
  induction t using ETree.ind with
  | hleaf v => rfl
  | hnode o cs ih =>
    simp only [ETree.simplify, ETree.getSize, sizeList_sizeSort, sizeList_absorb,
      simplifyList_eq_map]
    clear o
    induction cs with
    | nil => rfl
    | cons c rest ihl =>
      simp only [List.map_cons, sizeList]
      rw [ih c (List.mem_cons_self _ _), ihl (fun c' hc' => ih c' (List.mem_cons_of_mem _ hc'))]

/-- A stored reverse-polish expression parses completely, given fuel at
least its length, into a tree whose leaf count is the expression's value
count. -/
theorem parseGo_stored (e : RPExpr) (hs : Stored e) :
    ∀ fuel, e.length ≤ fuel →
      ∃ t, parseGo fuel e = some (t, []) ∧ t.getSize = nvals e := by
  induction hs with
  | single v =>
    intro fuel hf
    match fuel, hf with
    | f + 1, _ =>
      exact ⟨.leaf v, rfl, by simp [ETree.getSize, nvals]⟩
  | comp o v e he ih =>
    intro fuel hf
    obtain ⟨hnv1, hlen⟩ := he.length_eq
    simp only [List.length_cons] at hf
    match fuel, (by omega : e.length + 2 ≤ fuel) with
    | g + 1 + 1, _ =>
      obtain ⟨t₂, ht₂, hsize⟩ := ih (g + 1) (by omega)
      refine ⟨.node o [.leaf v, t₂], ?_, ?_⟩
      · have hstep : parseGo (g + 1 + 1) (PElem.op o :: PElem.val v :: e) =
            (parseGo (g + 1) e).bind
              (fun q => some (ETree.node o [ETree.leaf v, q.1], q.2)) := rfl
        rw [hstep, ht₂]
        rfl
      · simp only [ETree.getSize, sizeList, hsize, nvals_cons_op, nvals_cons_val]
        omega

/-- Adjacent entries of a weak ascending chain are ordered. -/
theorem leChain_adj (l : List ℚ) (h : leChain l = true) :
    ∀ k, k + 1 < l.length → l.getD k 0 ≤ l.getD (k + 1) 0 := by
  induction l with
  | nil =>
    intro k hk
    simp at hk
  | cons a rest ih =>
    intro k hk
    cases rest with
    | nil =>
      simp only [List.length_cons, List.length_nil] at hk
      omega
    | cons b rest₂ =>
      simp only [leChain, Bool.and_eq_true, decide_eq_true_eq] at h
      cases k with
      | zero =>
        simpa [List.getD_cons_zero, List.getD_cons_succ] using h.1
      | succ j =>
        have := ih h.2 j (by simp only [List.length_cons] at hk ⊢; omega)
        simpa [List.getD_cons_succ] using this

/-- A weak ascending chain is monotone on positional reads. -/
theorem leChain_mono (l : List ℚ) (h : leChain l = true) :
    ∀ i j, i ≤ j → j < l.length → l.getD i 0 ≤ l.getD j 0 := by
  have hd : ∀ d i, i + d < l.length → l.getD i 0 ≤ l.getD (i + d) 0 := by
    intro d
    induction d with
    | zero =>
      intro i _
      exact le_refl _
    | succ e ihe =>
      intro i hi
      have h1 : l.getD i 0 ≤ l.getD (i + e) 0 := ihe i (by omega)
      have h2 : l.getD (i + e) 0 ≤ l.getD (i + e + 1) 0 := leChain_adj l h (i + e) (by omega)
      exact le_trans h1 h2
  intro i j hij hj
  have := hd (j - i) i (by omega)
  rwa [Nat.add_sub_cancel' hij] at this

/-- Python read at a non-negative out-of-range index raises IndexError. -/
theorem pyGet_nat_oob {α : Type} (a : List α) (n : ℕ) (h : a.length ≤ n) :
    pyGet a (n : ℤ) = .error .indexError := by
  have h1 : ¬ ((n : ℤ) < 0) := by omega
  simp only [pyGet, if_neg h1]
  rw [if_pos (by omega : (0 : ℤ) ≤ (n : ℤ))]
  have h2 : ((n : ℤ)).toNat = n := by omega
  rw [h2, List.get?_eq_getElem?, List.getElem?_eq_none h]

/-- Invariant of the bisect_right loop on a weakly sorted list: the result
splits the index range into a prefix of entries at most x and a suffix of
entries above x. -/
theorem bisectLoop_spec (a : List ℚ) (x : ℚ)
    (hsorted : ∀ i j, i ≤ j → j < a.length → a.getD i 0 ≤ a.getD j 0) :
    ∀ (fuel lo hi : ℕ), hi ≤ a.length → lo ≤ hi → hi - lo < fuel →
      (∀ j, j < lo → a.getD j 0 ≤ x) →
      (∀ j, hi ≤ j → j < a.length → x < a.getD j 0) →
      ∀ r, bisectLoop a x fuel lo hi = r →
        lo ≤ r ∧ r ≤ hi ∧ (∀ j, j < r → a.getD j 0 ≤ x) ∧
          (∀ j, r ≤ j → j < a.length → x < a.getD j 0) := by
  intro fuel
  induction fuel with
  | zero =>
    intro lo hi _ _ hf
    exact absurd hf (by omega)
  | succ f ih =>
    intro lo hi hhi hlohi hf hlow hhigh r hr
    rw [bisectLoop] at hr
    by_cases hlt : lo < hi
    · rw [if_pos hlt] at hr
      replace hr : (if x < a.getD ((lo + hi) / 2) 0 then bisectLoop a x f lo ((lo + hi) / 2)
          else bisectLoop a x f ((lo + hi) / 2 + 1) hi) = r := hr
      by_cases hx : x < a.getD ((lo + hi) / 2) 0
      · rw [if_pos hx] at hr
        obtain ⟨h1, h2, h3, h4⟩ := ih lo ((lo + hi) / 2) (by omega) (by omega) (by omega)
          hlow (fun j hj hjlen => lt_of_lt_of_le hx (hsorted _ j hj hjlen)) r hr
        exact ⟨h1, by omega, h3, h4⟩
      · rw [if_neg hx] at hr
        push_neg at hx
        obtain ⟨h1, h2, h3, h4⟩ := ih ((lo + hi) / 2 + 1) hi hhi (by omega) (by omega)
          (fun j hj => le_trans (hsorted j ((lo + hi) / 2) (by omega) (by omega)) hx)
          hhigh r hr
        exact ⟨by omega, h2, h3, h4⟩
    · rw [if_neg hlt] at hr
      subst hr
      exact ⟨le_refl lo, hlohi, hlow, fun j hj hjlen => hhigh j (by omega) hjlen⟩

/-- bisect_right on a weakly sorted list containing x lands just after an
occurrence of x: the entry one below the result is x, and every entry from
the result on is strictly above x. -/
theorem bisect_mem_sorted (l : List ℚ) (x : ℚ) (hsorted : leChain l = true)
    (hmem : x ∈ l) :
    1 ≤ bisect l x ∧ bisect l x ≤ l.length ∧ l.getD (bisect l x - 1) 0 = x ∧
      (∀ j, bisect l x ≤ j → j < l.length → x < l.getD j 0) := by
  have hmono := leChain_mono l hsorted
  obtain ⟨p, hp, hpx⟩ := List.mem_iff_getElem.mp hmem
  have hgdp : l.getD p 0 = x := by
    rw [List.getD_eq_getElem?_getD, List.getElem?_eq_getElem hp]
    simpa using hpx
  obtain ⟨h0, hle, hbelow, habove⟩ := bisectLoop_spec l x hmono (l.length + 1) 0 l.length
    le_rfl (by omega) (by omega) (fun j hj => absurd hj (by omega))
    (fun j hj hjlen => absurd hjlen (by omega)) (bisect l x) (by rw [bisect])
  have hplt : p < bisect l x := by
    by_contra hcon
    push_neg at hcon
    exact absurd (habove p hcon hp) (by rw [hgdp]; exact lt_irrefl x)
  refine ⟨by omega, hle, ?_, habove⟩
  have h1 : l.getD (bisect l x - 1) 0 ≤ x := hbelow _ (by omega)
  have h2 : x ≤ l.getD (bisect l x - 1) 0 := by
    have hm := hmono p (bisect l x - 1) (by omega) (by omega)
    rwa [hgdp] at hm
  exact le_antisymm h1 h2

/-- Equation for a guarded probe whose read and lookup both succeed. -/
theorem probeTry_eq_ok (results : PyDict) (target : ℚ) (keys : List ℚ) (i : ℤ)
    (b : Best) (v : ℚ) (e : RPExpr)
    (hget : pyGet keys i = .ok v) (hfind : dictFind results v = some e) :
    probeTry results target keys i b = .ok (bestUpdate target b e v) := by
  rw [probeTry]
  split
  · rename_i err heq
    rw [hget] at heq
    exact absurd heq (by simp)
  · rename_i v' heq
    rw [hget] at heq
    cases heq
    split
    · rename_i heq₂
      rw [hfind] at heq₂
      exact absurd heq₂ (by simp)
    · rename_i e₂ heq₂
      rw [hfind] at heq₂
      cases heq₂
      rfl

/-- Equation for a guarded probe whose read raises IndexError: the pass in
the except arm keeps the best candidate. -/
theorem probeTry_eq_pass (results : PyDict) (target : ℚ) (keys : List ℚ) (i : ℤ)
    (b : Best) (err : PyErr) (hget : pyGet keys i = .error err) :
    probeTry results target keys i b = .ok b := by
  rw [probeTry]
  split
  · rfl
  · rename_i v' heq
    rw [hget] at heq
    exact absurd heq (by simp)

/-- Probe of a sorted level that contains the target itself: the probe one
below the bisect index reads the target, whose error of zero beats the
strictly-above entry at the bisect index, so the probe returns the stored
binding of the target. -/
theorem probeLevel_exact (results : PyDict) (target : ℚ) (l₀ : List ℚ)
    (hsorted : leChain l₀ = true) (hmem : target ∈ l₀)
    (e : RPExpr) (hfind : dictFind results target = some e)
    (hall : ∀ v ∈ l₀, (dictFind results v).isSome = true) :
    probeLevel results target none l₀ = .ok (some (e, target)) := by
  obtain ⟨h1, hle, hhit, habove⟩ := bisect_mem_sorted l₀ target hsorted hmem
  have hi1lt : bisect l₀ target - 1 < l₀.length := by
    have : 0 < l₀.length := List.length_pos.mpr (List.ne_nil_of_mem hmem)
    omega
  have hidx : ((bisect l₀ target : ℤ)) - 1 = ((bisect l₀ target - 1 : ℕ) : ℤ) := by omega
  have helem : l₀[bisect l₀ target - 1] = target := by
    have h := hhit
    rw [List.getD_eq_getElem?_getD, List.getElem?_eq_getElem hi1lt] at h
    simpa using h
  have hget1 : pyGet l₀ ((bisect l₀ target : ℤ) - 1) = .ok target := by
    rw [hidx, pyGet_nat l₀ _ hi1lt, helem]
  simp only [probeLevel]
  by_cases hcase : bisect l₀ target < l₀.length
  · have hgeti : pyGet l₀ (bisect l₀ target : ℤ) = .ok l₀[bisect l₀ target] :=
      pyGet_nat l₀ _ hcase
    have hmemi : l₀[bisect l₀ target] ∈ l₀ := List.getElem_mem _
    obtain ⟨e₁, he₁⟩ := Option.isSome_iff_exists.mp (hall _ hmemi)
    have hgt : target < l₀[bisect l₀ target] := by
      have h := habove _ le_rfl hcase
      rw [List.getD_eq_getElem?_getD, List.getElem?_eq_getElem hcase] at h
      simpa using h
    rw [probeTry_eq_ok results target l₀ _ none _ e₁ hgeti he₁, bind_ok,
      probeTry_eq_ok results target l₀ _ _ target e hget1 hfind]
    rw [bestUpdate_none, bestUpdate_some]
    rw [if_pos]
    rw [sub_self, abs_zero]
    exact abs_pos.mpr (sub_ne_zero.mpr (ne_of_lt hgt))
  · have hoob : pyGet l₀ (bisect l₀ target : ℤ) = .error .indexError :=
      pyGet_nat_oob l₀ _ (by omega)
    rw [probeTry_eq_pass results target l₀ _ none _ hoob, bind_ok,
      probeTry_eq_ok results target l₀ _ none target e hget1 hfind]
    rw [bestUpdate_none]

/-- C1 counterexample.  A run can spend all its rounds and still return an
expression with fewer than max_num_comps values while missing the
tolerance: with the single available value 1 and target 12/10 under
tolerance 0, both rounds end with the one-component expression [1], so the
returned network neither meets the tolerance nor has exactly 2 leaves. -/
theorem make_resistance_exact_leaves_cex :
    make_resistance (12/10) 2 0 [1] 3 3 = .ok ([PElem.val 1], 1, 2) ∧
    nvals [PElem.val 1] = 1 ∧ ¬(|(12/10 : ℚ) - 1| ≤ 0 * (12/10)) :=
  ⟨by decide, by decide, by decide⟩

/-- C1 (amended).  For every successful make_resistance run the returned
reverse-polish expression has at most r values where r is the component
count of the final round, r is at most max_num_comps (so the network never
exceeds max_num_comps leaves, though it may have fewer), any run that broke
out before the final round meets |value - target| <= tolerance * target,
and the returned expression parses to an ExprTree whose size equals its
value count. -/
theorem make_resistance_leaves_or_tolerance (target tolerance : ℚ) (maxN : ℕ)
    (avail : List ℚ) (nfsearch nfslag : ℤ) (e : RPExpr) (v : ℚ) (r : ℕ)
    (h : make_resistance target maxN tolerance avail nfsearch nfslag = .ok (e, v, r)) :
    nvals e ≤ r ∧ r ≤ maxN ∧ (r < maxN → |target - v| ≤ tolerance * target) ∧
      ∃ t, ExprTree e = some t ∧ t.getSize = nvals e := by
  rw [make_resistance] at h
  cases maxN with
  | zero =>
    rw [show List.range' 1 0 = [] from rfl] at h
    simp only [mrLoop] at h
    exact absurd h (by simp)
  | succ k =>
    have hmem : ∀ m ∈ List.range' 1 (k + 1), m ≤ k + 1 := by
      intro m hm
      rw [List.mem_range'_1] at hm
      omega
    have hlast : (List.range' 1 (k + 1)).getLast? = some (k + 1) := by
      rw [List.range'_concat, List.getLast?_concat]
      simp [Nat.add_comm]
    obtain ⟨hse, hnv, hrle, htol⟩ := mrLoop_ok avail target tolerance nfsearch nfslag
      (k + 1) (List.range' 1 (k + 1)) (initState avail) e v r (initState_inv avail)
      hmem hlast h
    obtain ⟨t₀, hp, hsz⟩ := parseGo_stored e hse e.length le_rfl
    refine ⟨hnv, hrle, htol, t₀.simplify, ?_, ?_⟩
    · rw [ExprTree, hp]
      rfl
    · rw [getSize_simplify, hsz]

theorem make_resistance_leaves_or_tolerance_witness :
    make_resistance 5 1 1 [5] 3 3 = .ok ([PElem.val 5], 5, 1) ∧
    (nvals [PElem.val 5] ≤ 1 ∧ 1 ≤ 1 ∧ ((1 : ℕ) < 1 → |(5 : ℚ) - 5| ≤ 1 * 5) ∧
      ∃ t, ExprTree [PElem.val 5] = some t ∧ t.getSize = nvals [PElem.val 5]) :=
  ⟨by decide,
    make_resistance_leaves_or_tolerance 5 1 1 [5] 3 3 [PElem.val 5] 5 1 (by decide)⟩

/-- C2 counterexample.  The helper has no exact-match shortcut: with
available values [1, 2] and sub-target 2 at budget 2 the extension loop
reaches the catalogue value 2 equal to the sub-target and raises
ZeroDivisionError from needed = (val * target) / (val - target), instead of
returning the trivial [2]. -/
theorem helper_exact_match_div_zero_cex :
    (2 : ℚ) ∈ [(1 : ℚ), 2] ∧
    mrHelper [1, 2] 0 2 2 1
        ⟨[(1, [PElem.val 1]), (2, [PElem.val 2])], [[1, 2], []], []⟩
      = .error .zeroDivisionError :=
  ⟨by decide, by decide⟩

/-- C2 (amended).  The helper serves an exact catalogue hit only through
the memo probe, and only when the probe stage returns early: at budget 1,
if the sub-target is one of the (sorted, all bound) first-level keys, the
call returns that key's stored binding with error zero and leaves the
state untouched.  At larger budgets the extension loop reaches catalogue
values equal to the sub-target and raises ZeroDivisionError (see the
counterexample), so the original claim's no-division-by-zero guarantee
does not hold. -/
theorem mrHelper_budget_one_exact (avail : List ℚ) (tol target : ℚ) (fully : ℕ)
    (st : MRState) (l₀ : List ℚ) (rest : List (List ℚ))
    (hkeys : st.keyss = l₀ :: rest) (hsorted : leChain l₀ = true)
    (hmem : target ∈ l₀) (e : RPExpr) (hfind : dictFind st.results target = some e)
    (hall : ∀ v ∈ l₀, (dictFind st.results v).isSome = true) :
    mrHelper avail tol 1 target fully st = .ok (some (e, target), st) := by
  rw [mrHelper]
  rw [if_pos (Or.inl rfl)]
  rw [hkeys, List.take_succ_cons, List.take_zero]
  show (probeLevel st.results target none l₀ >>= fun b => Except.ok (b, st))
      = .ok (some (e, target), st)
  rw [probeLevel_exact st.results target l₀ hsorted hmem e hfind hall, bind_ok]

theorem mrHelper_budget_one_exact_witness :
    mrHelper [1, 2] 0 1 2 0 ⟨[(1, [PElem.val 1]), (2, [PElem.val 2])], [[1, 2]], []⟩
      = .ok (some ([PElem.val 2], 2),
          ⟨[(1, [PElem.val 1]), (2, [PElem.val 2])], [[1, 2]], []⟩) :=
  mrHelper_budget_one_exact [1, 2] 0 2 0
    ⟨[(1, [PElem.val 1]), (2, [PElem.val 2])], [[1, 2]], []⟩ [1, 2] [] rfl
    (by decide) (by decide) [PElem.val 2] (by decide) (by decide)

/-- C3 counterexample.  The helper has no tolerance-based early exit: with
target 2 over [1, 2], the probe of the first level already finds the exact
value 2, whose error 0 satisfies the (generous) tolerance 1, yet the
budget-2 call does not return that candidate: it enters the extension loop
and raises ZeroDivisionError. -/
theorem helper_no_tolerance_exit_cex :
    probeLevel [(1, [PElem.val 1]), (2, [PElem.val 2])] 2 none [1, 2]
        = .ok (some ([PElem.val 2], 2)) ∧
    |(2 : ℚ) - 2| ≤ 1 * 2 ∧
    mrHelper [1, 2] 1 2 2 1
        ⟨[(1, [PElem.val 1]), (2, [PElem.val 2])], [[1, 2], []], []⟩
      = .error .zeroDivisionError :=
  ⟨by decide, by decide, by decide⟩

/-- C3 (amended).  The early return of the helper fires exactly when the
remaining budget is 1 or at most the fully-searched depth, never on
tolerance, and it fires inside the first iteration of the probe loop: the
call is then equal to the probe of the first level alone (not of every
level up to the budget), with the state unchanged. -/
theorem mrHelper_early_probe (avail : List ℚ) (tol target : ℚ) (n fully : ℕ)
    (st : MRState) (l₀ : List ℚ) (rest : List (List ℚ))
    (hkeys : st.keyss = l₀ :: rest) (hcond : n = 0 ∨ n + 1 ≤ fully) :
    mrHelper avail tol (n + 1) target fully st =
      (probeLevel st.results target none l₀ >>= fun b => .ok (b, st)) := by
  rw [mrHelper, if_pos hcond, hkeys, List.take_succ_cons]

theorem mrHelper_early_probe_witness :
    mrHelper [1] 0 1 1 0 ⟨[(1, [PElem.val 1])], [[1]], []⟩ =
      (probeLevel [(1, [PElem.val 1])] 1 none [1] >>=
        fun b => .ok (b, ⟨[(1, [PElem.val 1])], [[1]], []⟩)) :=
  mrHelper_early_probe [1] 0 1 0 0 ⟨[(1, [PElem.val 1])], [[1]], []⟩ [1] [] rfl
    (Or.inl rfl)

/-- C4 counterexample.  The memo store is not minimizing on component
count: in the run make_resistance_st 4 3 0 [1, 7, 9] 3 3 the value 9/2 is
first inserted as the three-component 1 + (7 par 7), and when the
two-component 9 par 9 is attempted later for the same value the store
keeps the first, larger expression. -/
theorem memo_insert_first_wins_cex :
    (make_resistance_st 4 3 0 [1, 7, 9] 3 3).map
        (fun p => (dictFind p.2.results (9/2),
          p.2.attempts.contains
            (9/2, [PElem.op .par, PElem.val 9, PElem.val 9])))
      = .ok (some [PElem.op .add, PElem.val 1, PElem.op .par, PElem.val 7,
          PElem.val 7], true) ∧
    nvals [PElem.op .add, PElem.val 1, PElem.op .par, PElem.val 7, PElem.val 7] = 3 ∧
    nvals [PElem.op .par, PElem.val 9, PElem.val 9] = 2 :=
  ⟨by decide, by decide, by decide⟩

/-- C4 (amended).  Memo insertion is idempotent on the value key but
first-wins, not minimizing: whatever expression a save block is asked to
record, every key already bound keeps its existing binding, so the store
maps each value to the first expression inserted for it, even when a later
attempt has fewer components (see the counterexample). -/
theorem saveNew_first_wins (st : MRState) (nv : ℚ) (ne₁ : RPExpr) (st₂ : MRState)
    (k : ℚ) (e : RPExpr) (hfind : dictFind st.results k = some e)
    (h : saveNew st nv ne₁ = .ok st₂) :
    dictFind st₂.results k = some e := by
  rw [saveNew_eq_saveNewAt, saveNewAt] at h
  by_cases hpres : (dictFind st.results nv).isSome
  · rw [if_pos hpres] at h
    cases h
    exact hfind
  · rw [if_neg hpres] at h
    cases hget : st.keyss.get? (ne₁.length / 2 + 1 - 1) with
    | none =>
      rw [hget] at h
      exact absurd h (by simp)
    | some keys =>
      rw [hget] at h
      simp only [bind_ok] at h
      cases h
      have hfree : dictFind st.results nv = none := by
        cases hd : dictFind st.results nv with
        | none => rfl
        | some e' => rw [hd] at hpres; simp at hpres
      exact dictFind_mono _ _ _ _ _ hfree hfind

theorem saveNew_first_wins_witness :
    dictFind (MRState.mk [(1, [PElem.val 1])] [[1]]
        [(1, [PElem.op .add, PElem.val 1, PElem.val 1])]).results 1
      = some [PElem.val 1] :=
  saveNew_first_wins ⟨[(1, [PElem.val 1])], [[1]], []⟩ 1
    [PElem.op .add, PElem.val 1, PElem.val 1]
    ⟨[(1, [PElem.val 1])], [[1]],
      [(1, [PElem.op .add, PElem.val 1, PElem.val 1])]⟩
    1 [PElem.val 1] (by decide) (by decide)

end Eppp
